import Mathlib

/-!
Verification model of the trusted-repos-policy sources (`src/lib.rs`,
`src/settings.rs`).

`Image::new` in `settings.rs` parses a container image reference by
prepending the scheme `registry://`, running the string through the
WHATWG URL parser (the Rust `url` crate), re-serializing the parsed URL,
and matching the serialization against three regular expressions.  The
definitions below embed that pipeline:

* `preprocess` models the URL standard's input preparation (trim
  trailing C0 controls and spaces of the whole string, which for the
  fixed nonempty scheme prefix only affects the tail; remove all ASCII
  tabs and newlines);
* `urlParse` models `Url::parse("registry://" ++ s)` for the non-special
  scheme `registry` (authority split, userinfo at the last `@`, opaque
  host with forbidden-code-point checking and C0 percent-encoding,
  bracketed IPv6, decimal port bounded by 65535, path state with
  single/double dot segment handling, query and fragment states with
  their percent-encode sets);
* `serializeUrl` models `format!("{}", url)`, `pathSer` models
  `Url::path()`;
* `parse_fqn`, `parse_image_name`, `parse_image_name_with_scheme` model
  the three Rust regexes of `Image::new` with the regex crate's
  leftmost-first (greedy, backtracking) capture semantics;
* `Image.new` glues these together exactly as the Rust function does;
  `Option.none` stands for the `Err` results of the Rust code;
* `Settings`, `validate` model `settings.rs` / `lib.rs` entry points.

The host display for the `registry` field follows `format!("{}", host)`
on the crate's `Host` values: domains verbatim, IPv6 via the standard
library `Ipv6Addr` display of 2020 era Rust (special cases for `::`,
`::1`, IPv4-compatible and IPv4-mapped addresses, otherwise first
longest zero-run compression).  `Host::Ipv4` is unreachable for a
non-special scheme, so no IPv4 display is modelled.
-/

namespace TrustedRepos

abbrev Chars := List Char

/-- Characters removed from both ends of the URL input: C0 controls and space. -/
def isC0OrSpace (c : Char) : Bool := c.toNat ≤ 0x20

/-- ASCII tab and newlines, removed everywhere from the URL input. -/
def isTabNl (c : Char) : Bool := c.toNat = 0x09 ∨ c.toNat = 0x0A ∨ c.toNat = 0x0D

/-- Drop trailing C0 controls and spaces. -/
def trimTrail (l : Chars) : Chars := (l.reverse.dropWhile isC0OrSpace).reverse

/-- Input preparation of `Url::parse ("registry://" ++ s)` restricted to the
user-controlled part `s`: the leading trim never reaches past the fixed
scheme prefix, so only the trailing trim and the tab/newline removal act
on `s`. -/
def preprocess (s : String) : Chars := (trimTrail s.toList).filter (fun c => ¬ isTabNl c)

/-- Uppercase hex digit of a value below 16 (as used by percent-encoding). -/
def hexUp (n : Nat) : Char := "0123456789ABCDEF".toList.getD n '0'

/-- Lowercase hex digit. -/
def hexLo (n : Nat) : Char := "0123456789abcdef".toList.getD n '0'

/-- Decimal digit. -/
def decDigit (n : Nat) : Char := "0123456789".toList.getD n '0'

/-- Percent-encoding of one byte. -/
def pctByte (b : Nat) : Chars := ['%', hexUp (b / 16), hexUp (b % 16)]

/-- UTF-8 bytes of a unicode scalar value. -/
def utf8Bytes (n : Nat) : List Nat :=
  if n < 0x80 then [n]
  else if n < 0x800 then [0xC0 + n / 64, 0x80 + n % 64]
  else if n < 0x10000 then [0xE0 + n / 4096, 0x80 + n / 64 % 64, 0x80 + n % 64]
  else [0xF0 + n / 262144, 0x80 + n / 4096 % 64, 0x80 + n / 64 % 64, 0x80 + n % 64]

/-- UTF-8 percent-encode a character. -/
def pctEnc (c : Char) : Chars := (utf8Bytes c.toNat).flatMap pctByte

/-- The C0 control percent-encode set: C0 controls and everything above tilde. -/
def inC0Set (c : Char) : Bool := c.toNat ≤ 0x1F ∨ c.toNat ≥ 0x7F

/-- The fragment percent-encode set. -/
def inFragSet (c : Char) : Bool :=
  inC0Set c ∨ c.toNat = 0x20 ∨ c.toNat = 0x22 ∨ c.toNat = 0x3C ∨ c.toNat = 0x3E ∨ c.toNat = 0x60

/-- The query percent-encode set (non-special scheme). -/
def inQuerySet (c : Char) : Bool :=
  inC0Set c ∨ c.toNat = 0x20 ∨ c.toNat = 0x22 ∨ c.toNat = 0x23 ∨ c.toNat = 0x3C ∨ c.toNat = 0x3E

/-- The path percent-encode set. -/
def inPathSet (c : Char) : Bool :=
  inQuerySet c ∨ c.toNat = 0x3F ∨ c.toNat = 0x60 ∨ c.toNat = 0x7B ∨ c.toNat = 0x7D

/-- The userinfo percent-encode set. -/
def inUserSet (c : Char) : Bool :=
  inPathSet c ∨ c.toNat = 0x2F ∨ c.toNat = 0x3A ∨ c.toNat = 0x3B ∨ c.toNat = 0x3D ∨
    c.toNat = 0x40 ∨ c.toNat = 0x5B ∨ c.toNat = 0x5C ∨ c.toNat = 0x5D ∨
    c.toNat = 0x5E ∨ c.toNat = 0x7C

/-- Percent-encode every character of `l` that lies in the set `f`. -/
def encWith (f : Char → Bool) (l : Chars) : Chars :=
  l.flatMap (fun c => if f c then pctEnc c else [c])

/-- Forbidden host code points (failing the opaque-host parser). -/
def forbiddenHost (c : Char) : Bool :=
  c.toNat = 0x00 ∨ c.toNat = 0x09 ∨ c.toNat = 0x0A ∨ c.toNat = 0x0D ∨ c.toNat = 0x20 ∨
    c.toNat = 0x23 ∨ c.toNat = 0x2F ∨ c.toNat = 0x3A ∨ c.toNat = 0x3C ∨ c.toNat = 0x3E ∨
    c.toNat = 0x3F ∨ c.toNat = 0x40 ∨ c.toNat = 0x5B ∨ c.toNat = 0x5C ∨ c.toNat = 0x5D ∨
    c.toNat = 0x5E ∨ c.toNat = 0x7C

/-- Hex digit value of a character, if any. -/
def hexVal? (c : Char) : Option Nat :=
  if 48 ≤ c.toNat ∧ c.toNat ≤ 57 then some (c.toNat - 48)
  else if 65 ≤ c.toNat ∧ c.toNat ≤ 70 then some (c.toNat - 55)
  else if 97 ≤ c.toNat ∧ c.toNat ≤ 102 then some (c.toNat - 87)
  else none

/-- ASCII hex digit test. -/
def isHexDig (c : Char) : Bool := (hexVal? c).isSome

/-- One decimal number of an embedded IPv4 address (no leading zero, at most 255). -/
def v4Num (cs : Chars) : Option (Nat × Chars) :=
  let ds := cs.takeWhile Char.isDigit
  if ds.isEmpty then none
  else if ds.head? = some '0' ∧ 1 < ds.length then none
  else
    let v := ds.foldl (fun a c => a * 10 + (c.toNat - 48)) 0
    if v ≤ 255 then some (v, cs.drop ds.length) else none

/-- A full embedded IPv4 address `a.b.c.d`, consuming the entire input. -/
def v4Quad (cs : Chars) : Option (Nat × Nat × Nat × Nat) :=
  match v4Num cs with
  | some (a, '.' :: r1) =>
    match v4Num r1 with
    | some (b, '.' :: r2) =>
      match v4Num r2 with
      | some (c, '.' :: r3) =>
        match v4Num r3 with
        | some (d, []) => some (a, b, c, d)
        | _ => none
      | _ => none
    | _ => none
  | _ => none

set_option linter.unusedVariables false in
/-- Main group loop of the WHATWG IPv6 parser.  `addr` is the piece array,
`pi` the current piece index, `comp` the compress pointer. -/
def v6Groups (addr : List Nat) (pi : Nat) (comp : Option Nat) (cs : Chars) :
    Option (List Nat × Nat × Option Nat) :=
  match cs with
  | [] => some (addr, pi, comp)
  | ':' :: r =>
    if pi = 8 ∨ comp.isSome then none
    else v6Groups addr (pi + 1) (some (pi + 1)) r
  | c :: r =>
    if pi = 8 then none
    else if hc : isHexDig c then
      let pre := ((c :: r).takeWhile isHexDig).take 4
      let v := pre.foldl (fun a x => a * 16 + (hexVal? x).getD 0) 0
      match hrest : (c :: r).drop pre.length with
      | [] => some (addr.set pi v, pi + 1, comp)
      | '.' :: _ =>
        if 6 < pi then none
        else
          (v4Quad (c :: r)).map (fun q =>
            ((addr.set pi (q.1 * 256 + q.2.1)).set (pi + 1) (q.2.2.1 * 256 + q.2.2.2),
              pi + 2, comp))
      | ':' :: r2 =>
        if r2.isEmpty then none
        else v6Groups (addr.set pi v) (pi + 1) comp r2
      | _ => none
    else none
termination_by cs.length
decreasing_by
  · simp
  · have h1 := congrArg List.length hrest
    rw [List.length_drop] at h1
    have h2 : 1 ≤ (((c :: r).takeWhile isHexDig).take 4).length := by
      simp [List.takeWhile_cons, hc]
    simp only [List.length_cons] at h1 h2 ⊢
    omega

/-- Final compress expansion of the IPv6 parser. -/
def v6Finish (addr : List Nat) (pi : Nat) (comp : Option Nat) : Option (List Nat) :=
  match comp with
  | some ci => some (addr.take ci ++ List.replicate (8 - pi) 0 ++ (addr.drop ci).take (pi - ci))
  | none => if pi = 8 then some addr else none

/-- WHATWG IPv6 parser over the text between brackets. -/
def parseV6 (cs : Chars) : Option (List Nat) :=
  match cs with
  | ':' :: ':' :: r =>
    (v6Groups (List.replicate 8 0) 1 (some 1) r).bind fun t => v6Finish t.1 t.2.1 t.2.2
  | ':' :: _ => none
  | _ => (v6Groups (List.replicate 8 0) 0 none cs).bind fun t => v6Finish t.1 t.2.1 t.2.2

/-- Lowercase hex writer; the fuel bounds the recursion depth and
`n + 1` is always enough since `n / 16 < n` for positive `n`. -/
def hexLowerAux : Nat → Nat → Chars
  | 0, _ => []
  | fuel + 1, n =>
    if n < 16 then [hexLo n] else hexLowerAux fuel (n / 16) ++ [hexLo (n % 16)]

/-- Lowercase hex digits of a number (as in both IPv6 serializers). -/
def hexLower (n : Nat) : Chars := hexLowerAux (n + 1) n

/-- Length of the zero run starting at index `i`. -/
def runLenAt (a : List Nat) (i : Nat) : Nat := ((a.drop i).takeWhile (· = 0)).length

/-- First longest run of at least two zero pieces, if any. -/
def bestRun (a : List Nat) : Option (Nat × Nat) :=
  let best := (List.range a.length).foldl
    (fun b i => if b.2 < runLenAt a i then (i, runLenAt a i) else b) (0, 0)
  if 2 ≤ best.2 then some best else none

def joinColon : List Chars → Chars
  | [] => []
  | [x] => x
  | x :: r => x ++ ':' :: joinColon r

/-- WHATWG IPv6 serializer (used inside the URL serialization, in brackets). -/
def v6Whatwg (a : List Nat) : Chars :=
  match bestRun a with
  | none => joinColon (a.map hexLower)
  | some (s, l) =>
    joinColon ((a.take s).map hexLower) ++ [':', ':'] ++ joinColon ((a.drop (s + l)).map hexLower)

/-- Decimal writer with the same fuel pattern as `hexLowerAux`. -/
def natDecAux : Nat → Nat → Chars
  | 0, _ => []
  | fuel + 1, n =>
    if n < 10 then [decDigit n] else natDecAux fuel (n / 10) ++ [decDigit (n % 10)]

/-- Decimal digits of a number. -/
def natDec (n : Nat) : Chars := natDecAux (n + 1) n

/-- Dotted IPv4 text of the final two IPv6 pieces. -/
def v4Dotted (g h : Nat) : Chars :=
  natDec (g / 256) ++ ['.'] ++ natDec (g % 256) ++ ['.'] ++ natDec (h / 256) ++ ['.'] ++
    natDec (h % 256)

/-- Display of `std::net::Ipv6Addr` (2020 era): special cases for the
unspecified and loopback addresses and for IPv4-compatible and
IPv4-mapped addresses, otherwise first-longest zero-run compression. -/
def v6Rust (a : List Nat) : Chars :=
  match a with
  | [0, 0, 0, 0, 0, 0, 0, 0] => [':', ':']
  | [0, 0, 0, 0, 0, 0, 0, 1] => [':', ':', '1']
  | [0, 0, 0, 0, 0, 0, g, h] => [':', ':'] ++ v4Dotted g h
  | [0, 0, 0, 0, 0, 65535, g, h] => [':', ':', 'f', 'f', 'f', 'f', ':'] ++ v4Dotted g h
  | _ =>
    match bestRun a with
    | none => joinColon (a.map hexLower)
    | some (s, l) =>
      joinColon ((a.take s).map hexLower) ++ [':', ':'] ++
        joinColon ((a.drop (s + l)).map hexLower)

/-- Parsed host of a non-special URL: an opaque host (the crate's
`Host::Domain`, stored percent-encoded) or a bracketed IPv6 address. -/
inductive HostV where
  | dom (s : Chars)
  | v6 (a : List Nat)
deriving DecidableEq, Repr

/-- Parsed URL record for a `registry://` URL. -/
structure UrlRec where
  username : Chars
  password : Chars
  host : Option HostV
  port : Option Nat
  path : List Chars
  query : Option Chars
  fragment : Option Chars
deriving DecidableEq, Repr

/-- Characters terminating the authority of a non-special URL. -/
def isAuthEnd (c : Char) : Bool := c = '/' ∨ c = '?' ∨ c = '#'

/-- Authority text: everything before the first `/`, `?` or `#`. -/
def authOf (p : Chars) : Chars := p.takeWhile (fun c => ¬ isAuthEnd c)

/-- The rest of the input, from the first `/`, `?` or `#` on. -/
def restOf (p : Chars) : Chars := p.dropWhile (fun c => ¬ isAuthEnd c)

/-- Split the authority at its last `@` into userinfo and host-port text. -/
def splitLastAt (l : Chars) : Option Chars × Chars :=
  if '@' ∈ l then
    let after := (l.reverse.takeWhile (fun c => c ≠ '@')).reverse
    (some (l.take (l.length - after.length - 1)), after)
  else (none, l)

/-- Split userinfo at the first `:` into username and password. -/
def credSplit : Option Chars → Chars × Chars
  | none => ([], [])
  | some ui =>
    (ui.takeWhile (fun c => c ≠ ':'),
      match ui.dropWhile (fun c => c ≠ ':') with
      | [] => []
      | _ :: t => t)

/-- Split host-port text at the first `:` that is not inside brackets. -/
def hostPortSplit (l : Chars) (inB : Bool) : Chars × Option Chars :=
  match l with
  | [] => ([], none)
  | c :: r =>
    if c = ':' ∧ ¬ inB then ([], some r)
    else
      let inB' := if c = '[' then true else if c = ']' then false else inB
      let (h, p) := hostPortSplit r inB'
      (c :: h, p)

/-- Opaque-host parsing of a nonempty host text: fail on forbidden host
code points, else percent-encode with the C0 control set.  The empty
host-port text — for which `Url::host()` of the crate returns `None` —
is handled by the first arm of `parseHostPort`, so this function is only
reached with a nonempty argument. -/
def parseOpaque (l : Chars) : Option HostV :=
  if l.any forbiddenHost then none else some (.dom (encWith inC0Set l))

/-- Port parsing: ASCII digits only, value at most 65535, empty means no port. -/
def parsePort (l : Chars) : Option (Option Nat) :=
  if l.isEmpty then some none
  else if l.all Char.isDigit then
    let v := l.foldl (fun a c => a * 10 + (c.toNat - 48)) 0
    if v ≤ 65535 then some (some v) else none
  else none

/-- Host and port of the authority's host-port text. -/
def parseHostPort (l : Chars) : Option (Option HostV × Option Nat) :=
  match (hostPortSplit l false).1, (hostPortSplit l false).2 with
  | [], none => some (none, none)
  | [], some _ => none
  | '[' :: rest, pb =>
    if rest.getLast? = some ']' then
      match parseV6 rest.dropLast with
      | none => none
      | some a =>
        match pb with
        | none => some (some (.v6 a), none)
        | some pr => (parsePort pr).map (fun po => (some (.v6 a), po))
    else none
  | c :: hbr, pb =>
    match parseOpaque (c :: hbr) with
    | none => none
    | some hv =>
      match pb with
      | none => some (some hv, none)
      | some pr => (parsePort pr).map (fun po => (some hv, po))

/-- Split a path region at every `/`. -/
def splitSlash : Chars → List Chars
  | [] => [[]]
  | c :: r =>
    if c = '/' then [] :: splitSlash r
    else
      match splitSlash r with
      | s :: ss => (c :: s) :: ss
      | [] => [[c]]

def dotLower (l : Chars) : Chars := l.map Char.toLower

/-- A single-dot path buffer (`.` or a percent-encoded dot). -/
def isSingleDot (l : Chars) : Bool :=
  dotLower l = ['.'] ∨ dotLower l = ['%', '2', 'e']

/-- A double-dot path buffer. -/
def isDoubleDot (l : Chars) : Bool :=
  dotLower l = ['.', '.'] ∨ dotLower l = ['.', '%', '2', 'e'] ∨
    dotLower l = ['%', '2', 'e', '.'] ∨ dotLower l = ['%', '2', 'e', '%', '2', 'e']

/-- Shorten a URL path (drop the last segment). -/
def shorten (p : List Chars) : List Chars := p.dropLast

/-- Path state: process the raw segments in order, handling dot segments;
the last segment is the one not followed by `/`. -/
def procSegs (acc : List Chars) : List Chars → List Chars
  | [] => acc
  | [b] =>
    if isDoubleDot (encWith inPathSet b) then shorten acc ++ [[]]
    else if isSingleDot (encWith inPathSet b) then acc ++ [[]]
    else acc ++ [encWith inPathSet b]
  | b :: r =>
    if isDoubleDot (encWith inPathSet b) then procSegs (shorten acc) r
    else if isSingleDot (encWith inPathSet b) then procSegs acc r
    else procSegs (acc ++ [encWith inPathSet b]) r

/-- Parse the path, query and fragment from the rest of the input
(which is empty or starts with `/`, `?` or `#`). -/
def parseTail (rest : Chars) : List Chars × Option Chars × Option Chars :=
  match rest with
  | [] => ([], none, none)
  | c :: r =>
    if c = '/' then
      match (c :: r).dropWhile (fun x => x ≠ '?' ∧ x ≠ '#') with
      | '?' :: qr =>
        (procSegs [] (splitSlash (((c :: r).takeWhile (fun x => x ≠ '?' ∧ x ≠ '#')).drop 1)),
         some (encWith inQuerySet (qr.takeWhile (fun x => x ≠ '#'))),
         match qr.dropWhile (fun x => x ≠ '#') with
         | [] => none
         | _ :: f => some (encWith inFragSet f))
      | '#' :: fr =>
        (procSegs [] (splitSlash (((c :: r).takeWhile (fun x => x ≠ '?' ∧ x ≠ '#')).drop 1)),
         none, some (encWith inFragSet fr))
      | _ =>
        (procSegs [] (splitSlash (((c :: r).takeWhile (fun x => x ≠ '?' ∧ x ≠ '#')).drop 1)),
         none, none)
    else if c = '?' then
      (([] : List Chars),
       some (encWith inQuerySet (r.takeWhile (fun x => x ≠ '#'))),
       match r.dropWhile (fun x => x ≠ '#') with
       | [] => none
       | _ :: f => some (encWith inFragSet f))
    else ([], none, some (encWith inFragSet r))

/-- The model of `Url::parse ("registry://" ++ s)`; `none` is a parse error. -/
def urlParse (s : String) : Option UrlRec :=
  if (splitLastAt (authOf (preprocess s))).1.isSome ∧
      (splitLastAt (authOf (preprocess s))).2.isEmpty then none
  else
    match parseHostPort (splitLastAt (authOf (preprocess s))).2 with
    | none => none
    | some hp =>
      some
        { username := encWith inUserSet (credSplit (splitLastAt (authOf (preprocess s))).1).1
          password := encWith inUserSet (credSplit (splitLastAt (authOf (preprocess s))).1).2
          host := hp.1
          port := hp.2
          path := (parseTail (restOf (preprocess s))).1
          query := (parseTail (restOf (preprocess s))).2.1
          fragment := (parseTail (restOf (preprocess s))).2.2 }

/-- Serialized host as it appears in the URL text. -/
def hostSer : Option HostV → Chars
  | none => []
  | some (.dom s) => s
  | some (.v6 a) => '[' :: v6Whatwg a ++ [']']

/-- Host as displayed by `format!` on the crate's `Host` value (used for
the `registry` field): domains verbatim, IPv6 without brackets via the
Rust standard library display. -/
def hostDisp : HostV → Chars
  | .dom s => s
  | .v6 a => v6Rust a

/-- The path text, as returned by `Url::path()`. -/
def pathSer (p : List Chars) : Chars := p.flatMap (fun seg => '/' :: seg)

def regPre : Chars := "registry://".toList

/-- Everything after the scheme `registry://` in the URL serialization. -/
def serialTail (u : UrlRec) : Chars :=
  (if u.username.isEmpty ∧ u.password.isEmpty then []
     else u.username ++ (if u.password.isEmpty then [] else ':' :: u.password) ++ ['@']) ++
    hostSer u.host ++
    (match u.port with
     | some p => ':' :: natDec p
     | none => []) ++
    pathSer u.path ++
    (match u.query with
     | some q => '?' :: q
     | none => []) ++
    (match u.fragment with
     | some f => '#' :: f
     | none => [])

/-- The URL serialization, `format!("{}", url)`. -/
def serializeUrl (u : UrlRec) : Chars := regPre ++ serialTail u

/-- The userinfo chunk of the serialization, as a standalone view. -/
def userPart (u : UrlRec) : Chars :=
  if u.username.isEmpty ∧ u.password.isEmpty then []
  else u.username ++ (if u.password.isEmpty then [] else ':' :: u.password) ++ ['@']

/-- The port chunk of the serialization. -/
def portPart : Option Nat → Chars
  | some p => ':' :: natDec p
  | none => []

/-- The query chunk of the serialization. -/
def queryPart : Option Chars → Chars
  | some q => '?' :: q
  | none => []

/-- The fragment chunk of the serialization. -/
def fragPart : Option Chars → Chars
  | some f => '#' :: f
  | none => []

/-! ## The three regexes of `Image::new`

`parse_fqn` models
`^(registry://)?(?P<fqn>[^:@]+)(:(?P<tag>[^@]+))?(@sha256:(?P<sha256>[A-Fa-f0-9]{64}))?$`
with the Rust regex crate's leftmost-first semantics: the optional prefix
prefers to match, each greedy repetition prefers the longest length and
backtracks downwards, optional groups prefer presence. -/

/-- Strip a literal from the front of a list, if present. -/
def stripPre : Chars → Chars → Option Chars
  | [], l => some l
  | _ :: _, [] => none
  | a :: pr, b :: l => if a = b then stripPre pr l else none

/-- Hex-digit test of the digest character class `[A-Fa-f0-9]`. -/
def hexDig (c : Char) : Bool :=
  (48 ≤ c.toNat ∧ c.toNat ≤ 57) ∨ (65 ≤ c.toNat ∧ c.toNat ≤ 70) ∨
    (97 ≤ c.toNat ∧ c.toNat ≤ 102)

/-- A well-formed 64 character digest. -/
def isHex64 (l : Chars) : Bool := l.length = 64 ∧ l.all hexDig

/-- Match `(@sha256:(?P<sha256>[A-Fa-f0-9]{64}))?$` against the whole of `r`:
first prefer the group present, then absent (which requires the end). -/
def shaOrEnd (r : Chars) : Option (Option Chars) :=
  match stripPre ("@sha256:".toList) r with
  | some t => if isHex64 t then some (some t) else if r.isEmpty then some none else none
  | none => if r.isEmpty then some none else none

/-- Backtracking loop of the greedy `[^@]+` tag: try length `k`, `k-1`, ..., `1`. -/
def tagDescend (rest : Chars) : Nat → Option (Chars × Option Chars)
  | 0 => none
  | k + 1 =>
    match shaOrEnd (rest.drop (k + 1)) with
    | some sh => some (rest.take (k + 1), sh)
    | none => tagDescend rest k

/-- Match `(:(?P<tag>[^@]+))?(@sha256:...)?$` against the whole of `r`. -/
def tagSha (r : Chars) : Option (Option Chars × Option Chars) :=
  match r with
  | ':' :: rest =>
    match tagDescend rest ((rest.takeWhile (fun c => c ≠ '@')).length) with
    | some (t, sh) => some (some t, sh)
    | none => (shaOrEnd r).map (fun sh => (none, sh))
  | _ => (shaOrEnd r).map (fun sh => (none, sh))

/-- Backtracking loop of the greedy `[^:@]+` fqn group. -/
def fqnDescend (cs : Chars) : Nat → Option (Chars × Option Chars × Option Chars)
  | 0 => none
  | k + 1 =>
    match tagSha (cs.drop (k + 1)) with
    | some (t, sh) => some (cs.take (k + 1), t, sh)
    | none => fqnDescend cs k

/-- Match `(?P<fqn>[^:@]+)(:(?P<tag>[^@]+))?(@sha256:...)?$` from a position. -/
def tryFqnFrom (cs : Chars) : Option (Chars × Option Chars × Option Chars) :=
  fqnDescend cs ((cs.takeWhile (fun c => c ≠ ':' ∧ c ≠ '@')).length)

/-- The captures of the `parse_fqn` regex on `u` (`none` when there is no match). -/
def parse_fqn (u : Chars) : Option (Chars × Option Chars × Option Chars) :=
  match stripPre regPre u with
  | some rest =>
    match tryFqnFrom rest with
    | some o => some o
    | none => tryFqnFrom u
  | none => tryFqnFrom u

/-- The `fqn` capture of `^registry://(?P<fqn>.*)$` on `u`.  `.` does not
match a newline and `$` is the end of the haystack, so the match exists
exactly when `u` starts with the prefix and the remainder has no newline. -/
def parse_image_name_with_scheme (u : Chars) : Option Chars :=
  match stripPre regPre u with
  | some rest => if '\n' ∈ rest then none else some rest
  | none => none

/-- The `image` capture of the unanchored `(?P<image>.*)$` on `f`: the first
position from which `.*` reaches the end of the haystack is just after the
last newline, so the capture is everything after the last newline. -/
def parse_image_name (f : Chars) : Chars :=
  (f.reverse.takeWhile (fun c => c ≠ '\n')).reverse

/-- The `Image` struct of `settings.rs`. -/
structure Image where
  registry : Option String
  fqn : String
  name : String
  tag : Option String
  sha256 : Option String
deriving DecidableEq, Repr

/-- The `registry` value of `Image::new`: host display plus `:port` when a
port is present; `None` when the URL has no host. -/
def mkRegistry (u : UrlRec) : Option String :=
  u.host.map fun h =>
    (hostDisp h ++
      (match u.port with
       | some p => ':' :: natDec p
       | none => [])).asString

/-- The model of `Image::new`: parse the scheme-prefixed URL, then match the
serialization with `parse_image_name_with_scheme` when the path is empty and
with `parse_fqn` otherwise; `name` is the `parse_image_name` capture on the
`fqn` field.  `none` models every `Err` return. -/
def Image.new (s : String) : Option Image :=
  match urlParse s with
  | none => none
  | some url =>
    let u := serializeUrl url
    let caps : Option (Chars × Option Chars × Option Chars) :=
      if url.path.isEmpty then (parse_image_name_with_scheme u).map (fun f => (f, none, none))
      else parse_fqn u
    caps.map fun x =>
      { registry := mkRegistry url
        fqn := x.1.asString
        name := (parse_image_name x.1).asString
        tag := x.2.1.map List.asString
        sha256 := x.2.2.map List.asString }

/-- `Image::name_with_tag`. -/
def Image.name_with_tag (i : Image) : String :=
  i.name ++
    (match i.tag with
     | some t => ":" ++ t
     | none => "")

/-- `Image::fully_qualified_name`. -/
def Image.fully_qualified_name (i : Image) : String :=
  i.name_with_tag ++
    (match i.sha256 with
     | some d => "@sha256:" ++ d
     | none => "")

/-- The reconstruction named by the round-trip property of the spec:
`"registry/"` prefix when a registry is present, then repository and tag. -/
def reconClaim (i : Image) : String :=
  (match i.registry with
   | some r => r ++ "/"
   | none => "") ++ i.name_with_tag

/-! ## `Settings` and the `validate` entry point -/

/-- The `Registries` allow/reject lists of `settings.rs`. -/
structure Registries where
  allow : List String
  reject : List String
deriving DecidableEq, Repr

/-- The `Tags` allow/reject lists. -/
structure Tags where
  allow : List String
  reject : List String
deriving DecidableEq, Repr

/-- The `Images` allow/reject lists. -/
structure Images where
  allow : List String
  reject : List String
deriving DecidableEq, Repr

/-- The policy `Settings` of `settings.rs`. -/
structure Settings where
  registries : Registries
  tags : Tags
  images : Images
deriving DecidableEq, Repr

/-- `Settings::is_allowed_registry` — the source body is literally `false`. -/
def Settings.is_allowed_registry (_ : Settings) (_ : String) : Bool := false

/-- `Settings::is_allowed_tag` — the source body is literally `false`. -/
def Settings.is_allowed_tag (_ : Settings) (_ : String) : Bool := false

/-- `Settings::is_allowed_image` — the source body is literally `false`. -/
def Settings.is_allowed_image (_ : Settings) (_ : String) : Bool := false

/-- The verdict serialized back to the host by the policy. -/
inductive Verdict where
  | accept
  | reject (reason : String)
deriving DecidableEq, Repr

/-- A deserialized `ValidationRequest<Settings>`: the manifest payload is
opaque to `validate`, which never inspects it. -/
structure ValidationRequest where
  settings : Settings
  request : List Nat
deriving DecidableEq, Repr

/-- `chimera::accept_request()`. -/
def acceptRequest : Verdict := .accept

/-- The `validate` entry point of `lib.rs`: deserialize the payload (an
error propagates via `?`), ignore the result, and accept. -/
def validate (deser : List Nat → Option ValidationRequest) (payload : List Nat) :
    Option Verdict :=
  match deser payload with
  | none => none
  | some _ => some acceptRequest

/-- The text contributed to a `parse_fqn` match by the optional tag group. -/
def tagPart : Option Chars → Chars
  | none => []
  | some tc => ':' :: tc

/-- The text contributed to a `parse_fqn` match by the optional digest group. -/
def shaPart : Option Chars → Chars
  | none => []
  | some d => "@sha256:".toList ++ d

/-- A deserializer stub used to witness the `validate` theorem. -/
def deserStub (_ : List Nat) : Option ValidationRequest :=
  some ⟨⟨⟨[], []⟩, ⟨[], []⟩, ⟨[], []⟩⟩, []⟩

/-! ## Lemmas about the regex matchers -/

theorem stripPre_some {pre : Chars} : ∀ {l r : Chars}, stripPre pre l = some r → l = pre ++ r := by
  induction pre with
  | nil => intro l r h; simp [stripPre] at h; simp [h]
  | cons a pr ih =>
    intro l r h
    cases l with
    | nil => simp [stripPre] at h
    | cons b l' =>
      simp only [stripPre] at h
      split at h
      · next heq => subst heq; simpa using ih h
      · exact absurd h (by simp)

theorem stripPre_append (pre l : Chars) : stripPre pre (pre ++ l) = some l := by
  induction pre with
  | nil => simp [stripPre]
  | cons a pr ih => simpa [stripPre] using ih

theorem shaOrEnd_some {r : Chars} {o : Option Chars} (h : shaOrEnd r = some o) :
    (o = none ∧ r = []) ∨ ∃ d, o = some d ∧ isHex64 d ∧ r = "@sha256:".toList ++ d := by
  unfold shaOrEnd at h
  cases hsp : stripPre ("@sha256:".toList) r with
  | some t =>
    rw [hsp] at h
    by_cases hx : isHex64 t
    · simp [hx] at h
      exact Or.inr ⟨t, h.symm, hx, stripPre_some hsp⟩
    · simp [hx] at h
      rcases h with ⟨hr, ho⟩
      exact Or.inl ⟨ho.symm, by simpa using hr⟩
  | none =>
    rw [hsp] at h
    rcases (by simpa using h : r.isEmpty = true ∧ none = o) with ⟨hr, ho⟩
    exact Or.inl ⟨ho.symm, by simpa using hr⟩

theorem take_of_takeWhile_all {p : Char → Bool} {l : Chars} {n : Nat}
    (h : n ≤ (l.takeWhile p).length) : ∀ c ∈ l.take n, p c := by
  intro c hc
  have he : l.take n = (l.takeWhile p).take n := by
    conv_lhs => rw [← List.takeWhile_append_dropWhile p l]
    rw [List.take_append_of_le_length h]
  rw [he] at hc
  exact List.mem_takeWhile_imp (List.take_subset _ _ hc)

theorem tagDescend_some {rest : Chars} : ∀ {k : Nat} {t : Chars} {sh : Option Chars},
    tagDescend rest k = some (t, sh) →
    ∃ m, m < k ∧ t = rest.take (m + 1) ∧ shaOrEnd (rest.drop (m + 1)) = some sh := by
  intro k
  induction k with
  | zero => intro t sh h; simp [tagDescend] at h
  | succ k ih =>
    intro t sh h
    unfold tagDescend at h
    cases hs : shaOrEnd (rest.drop (k + 1)) with
    | some sh' =>
      rw [hs] at h
      simp only [Option.some.injEq, Prod.mk.injEq] at h
      exact ⟨k, Nat.lt_succ_self k, h.1.symm, h.2 ▸ hs⟩
    | none =>
      rw [hs] at h
      rcases ih h with ⟨m, hm, ht, hsh⟩
      exact ⟨m, Nat.lt_succ_of_lt hm, ht, hsh⟩

theorem shaOrEnd_decomp {r : Chars} {o : Option Chars} (ho : shaOrEnd r = some o) :
    r = shaPart o ∧ ∀ d, o = some d → isHex64 d := by
  rcases shaOrEnd_some ho with ⟨ho', hr⟩ | ⟨d, ho', hx, hr⟩
  · subst ho'; exact ⟨by simp [shaPart, hr], by simp⟩
  · subst ho'
    exact ⟨by simpa [shaPart] using hr, by intro d' hd'; cases hd'; exact hx⟩

theorem tagSha_decomp {r : Chars} {t sh : Option Chars} (h : tagSha r = some (t, sh)) :
    r = tagPart t ++ shaPart sh ∧ (∀ tc, t = some tc → tc ≠ [] ∧ '@' ∉ tc) ∧
      ∀ d, sh = some d → isHex64 d := by
  have habs : ∀ {r' : Chars}, (shaOrEnd r').map (fun o => ((none : Option Chars), o)) =
      some (t, sh) →
      r' = tagPart t ++ shaPart sh ∧ (∀ tc, t = some tc → tc ≠ [] ∧ '@' ∉ tc) ∧
        ∀ d, sh = some d → isHex64 d := by
    intro r' h'
    cases hso : shaOrEnd r' with
    | some o =>
      rw [hso] at h'
      simp only [Option.map_some', Option.some.injEq, Prod.mk.injEq] at h'
      obtain ⟨h1, h2⟩ := h'
      subst h1
      subst h2
      rcases shaOrEnd_decomp hso with ⟨hdrop, hhex⟩
      exact ⟨by simpa [tagPart] using hdrop, ⟨fun tc htc => Option.noConfusion htc, hhex⟩⟩
    | none => rw [hso] at h'; simp at h'
  unfold tagSha at h
  split at h
  · next rest =>
    cases hd : tagDescend rest ((rest.takeWhile (fun c => c ≠ '@')).length) with
    | some pr =>
      rw [hd] at h
      simp only [Option.some.injEq, Prod.mk.injEq] at h
      obtain ⟨h1, h2⟩ := h
      subst h1
      subst h2
      obtain ⟨m, hm, ht, hsh⟩ := tagDescend_some hd
      rcases shaOrEnd_decomp hsh with ⟨hdrop, hhex⟩
      have hmle : m + 1 ≤ (rest.takeWhile (fun c => c ≠ '@')).length := hm
      have htwl : (rest.takeWhile (fun c => c ≠ '@')).length ≤ rest.length := by
        have hsplit := congrArg List.length
          (List.takeWhile_append_dropWhile (fun c => decide (c ≠ '@')) rest)
        simp only [List.length_append] at hsplit
        omega
      refine ⟨?_, ?_, hhex⟩
      · simp only [tagPart, List.cons_append, List.cons.injEq, true_and]
        rw [ht, ← hdrop]
        simp
      · intro tc htc
        cases htc
        constructor
        · rw [ht]
          have hl : (rest.take (m + 1)).length = m + 1 := by
            rw [List.length_take]; omega
          intro hnil
          rw [hnil] at hl
          simp at hl
        · rw [ht]
          intro hmem
          have := take_of_takeWhile_all hmle _ hmem
          simp at this
    | none =>
      rw [hd] at h
      exact habs h
  · exact habs h

theorem fqnDescend_some {cs : Chars} : ∀ {k : Nat} {f : Chars} {t sh : Option Chars},
    fqnDescend cs k = some (f, t, sh) →
    ∃ m, m < k ∧ f = cs.take (m + 1) ∧ tagSha (cs.drop (m + 1)) = some (t, sh) := by
  intro k
  induction k with
  | zero => intro f t sh h; simp [fqnDescend] at h
  | succ k ih =>
    intro f t sh h
    unfold fqnDescend at h
    cases hs : tagSha (cs.drop (k + 1)) with
    | some pr =>
      obtain ⟨t', sh'⟩ := pr
      rw [hs] at h
      simp only [Option.some.injEq, Prod.mk.injEq] at h
      obtain ⟨h1, h2, h3⟩ := h
      subst h1
      subst h2
      subst h3
      exact ⟨k, Nat.lt_succ_self k, rfl, hs⟩
    | none =>
      rw [hs] at h
      rcases ih h with ⟨m, hm, ht, hsh⟩
      exact ⟨m, Nat.lt_succ_of_lt hm, ht, hsh⟩

theorem tryFqnFrom_decomp {cs f : Chars} {t sh : Option Chars}
    (h : tryFqnFrom cs = some (f, t, sh)) :
    cs = f ++ tagPart t ++ shaPart sh ∧ f ≠ [] ∧ (∀ c ∈ f, c ≠ ':' ∧ c ≠ '@') ∧
      (∀ tc, t = some tc → tc ≠ [] ∧ '@' ∉ tc) ∧ ∀ d, sh = some d → isHex64 d := by
  unfold tryFqnFrom at h
  obtain ⟨m, hm, hf, hts⟩ := fqnDescend_some h
  rcases tagSha_decomp hts with ⟨hdecomp, htag, hsha⟩
  have hmle : m + 1 ≤ (cs.takeWhile (fun c => c ≠ ':' ∧ c ≠ '@')).length := hm
  have htwl : (cs.takeWhile (fun c => c ≠ ':' ∧ c ≠ '@')).length ≤ cs.length := by
    have hsplit := congrArg List.length
      (List.takeWhile_append_dropWhile (fun c => decide (c ≠ ':' ∧ c ≠ '@')) cs)
    simp only [List.length_append] at hsplit
    omega
  refine ⟨?_, ?_, ?_, htag, hsha⟩
  · rw [hf]
    conv_lhs => rw [← List.take_append_drop (m + 1) cs]
    rw [hdecomp, List.append_assoc]
  · rw [hf]
    have hl : (cs.take (m + 1)).length = m + 1 := by
      rw [List.length_take]; omega
    intro hnil
    rw [hnil] at hl
    simp at hl
  · intro c hcm
    have := take_of_takeWhile_all hmle c (hf ▸ hcm)
    simpa using this

theorem parse_fqn_decomp {u f : Chars} {t sh : Option Chars}
    (h : parse_fqn u = some (f, t, sh)) :
    ∃ pre, (pre = regPre ∨ pre = []) ∧ u = pre ++ (f ++ tagPart t ++ shaPart sh) ∧ f ≠ [] ∧
      (∀ c ∈ f, c ≠ ':' ∧ c ≠ '@') ∧ (∀ tc, t = some tc → tc ≠ [] ∧ '@' ∉ tc) ∧
      ∀ d, sh = some d → isHex64 d := by
  unfold parse_fqn at h
  split at h
  · rename_i rest hsp
    split at h
    · rename_i o htf
      have ho := Option.some.inj h
      rw [ho] at htf
      rcases tryFqnFrom_decomp htf with ⟨hdec, hne, hfc, htag, hsha⟩
      exact ⟨regPre, Or.inl rfl, by rw [stripPre_some hsp, hdec], hne, hfc, htag, hsha⟩
    · rename_i htf
      rcases tryFqnFrom_decomp h with ⟨hdec, hne, hfc, htag, hsha⟩
      exact ⟨[], Or.inr rfl, by rw [← hdec]; simp, hne, hfc, htag, hsha⟩
  · rename_i hsp
    rcases tryFqnFrom_decomp h with ⟨hdec, hne, hfc, htag, hsha⟩
    exact ⟨[], Or.inr rfl, by rw [← hdec]; simp, hne, hfc, htag, hsha⟩

theorem isHex64_spec {d : Chars} (hd : isHex64 d) : d.length = 64 ∧ ∀ c ∈ d, hexDig c := by
  have hd' : d.length = 64 ∧ d.all hexDig := by simpa [isHex64] using hd
  exact ⟨hd'.1, fun c hc => by
    have := hd'.2
    rw [List.all_eq_true] at this
    exact this c hc⟩

theorem hex64_not_at {d : Chars} (hd : isHex64 d) : '@' ∉ d := by
  intro hm
  have := (isHex64_spec hd).2 '@' hm
  simp [hexDig] at this

theorem shaPart_count_at {sh : Option Chars} (hsha : ∀ d, sh = some d → isHex64 d) :
    (shaPart sh).count '@' = (if sh.isSome then 1 else 0) := by
  cases sh with
  | none => simp [shaPart]
  | some d =>
    simp only [shaPart]
    rw [List.count_append]
    have h1 : ("@sha256:".toList).count '@' = 1 := by decide
    have h2 : d.count '@' = 0 := List.count_eq_zero.2 (hex64_not_at (hsha d rfl))
    rw [h1, h2]
    simp

theorem parse_fqn_count_at {u f : Chars} {t sh : Option Chars}
    (h : parse_fqn u = some (f, t, sh)) :
    u.count '@' = (if sh.isSome then 1 else 0) := by
  obtain ⟨pre, hpre, hu, _, hfc, htag, hsha⟩ := parse_fqn_decomp h
  rw [hu]
  rw [List.count_append, List.count_append, List.count_append]
  have h1 : pre.count '@' = 0 := by
    rcases hpre with rfl | rfl
    · decide
    · simp
  have h2 : f.count '@' = 0 := List.count_eq_zero.2 (fun hmem => (hfc _ hmem).2 rfl)
  have h3 : (tagPart t).count '@' = 0 := by
    cases t with
    | none => simp [tagPart]
    | some tc =>
      simp only [tagPart]
      rw [List.count_cons]
      have := List.count_eq_zero.2 ((htag tc rfl).2)
      simp [this]
  rw [h1, h2, h3, shaPart_count_at hsha]
  cases sh <;> simp

theorem append_suffix_eq {a b x y : Chars} (h : a ++ x = b ++ y) (hl : x.length = y.length) :
    x = y := by
  have hab : a.length = b.length := by
    have hlen := congrArg List.length h
    simp only [List.length_append] at hlen
    omega
  exact (List.append_inj h hab).2

/-- When `u` ends with a well-formed `@sha256:` digest and `parse_fqn` matches,
the digest group captures exactly that digest. -/
theorem parse_fqn_digest {u w hx f : Chars} {t sh : Option Chars}
    (hu : u = w ++ ("@sha256:".toList ++ hx)) (hh : isHex64 hx)
    (hm : parse_fqn u = some (f, t, sh)) : sh = some hx := by
  have hcnt := parse_fqn_count_at hm
  have hge : 1 ≤ u.count '@' := by
    rw [hu, List.count_append, List.count_append]
    have h1 : ("@sha256:".toList).count '@' = 1 := by decide
    omega
  cases sh with
  | none => simp [hcnt] at hge
  | some d =>
    obtain ⟨pre, hpre, hud, _, _, _, hsha⟩ := parse_fqn_decomp hm
    have hhexd : isHex64 d := hsha d rfl
    have hld : d.length = 64 := (isHex64_spec hhexd).1
    have hlx : hx.length = 64 := (isHex64_spec hh).1
    have hcat : (pre ++ (f ++ tagPart t)) ++ ("@sha256:".toList ++ d) =
        w ++ ("@sha256:".toList ++ hx) := by
      rw [← hu, hud]
      simp [shaPart, List.append_assoc]
    have hsd := append_suffix_eq hcat (by simp [hld, hlx])
    have := (List.append_inj hsd rfl).2
    rw [this]

/-! ## Inversion lemmas for the URL parser and `Image.new` -/

theorem urlParse_inv {s : String} {url : UrlRec} (h : urlParse s = some url) :
    ∃ hp : Option HostV × Option Nat,
      parseHostPort (splitLastAt (authOf (preprocess s))).2 = some hp ∧
      ¬((splitLastAt (authOf (preprocess s))).1.isSome ∧
          (splitLastAt (authOf (preprocess s))).2.isEmpty) ∧
      url = { username := encWith inUserSet (credSplit (splitLastAt (authOf (preprocess s))).1).1
              password := encWith inUserSet (credSplit (splitLastAt (authOf (preprocess s))).1).2
              host := hp.1
              port := hp.2
              path := (parseTail (restOf (preprocess s))).1
              query := (parseTail (restOf (preprocess s))).2.1
              fragment := (parseTail (restOf (preprocess s))).2.2 } := by
  unfold urlParse at h
  split at h
  · exact absurd h (by simp)
  · rename_i hguard
    split at h
    · exact absurd h (by simp)
    · rename_i hp hhp
      exact ⟨hp, hhp, hguard, (Option.some.inj h).symm⟩

theorem imageNew_inv {s : String} {img : Image} (h : Image.new s = some img) :
    ∃ url, urlParse s = some url ∧
      ∃ caps : Chars × Option Chars × Option Chars,
        (if url.path.isEmpty then
            (parse_image_name_with_scheme (serializeUrl url)).map (fun f => (f, none, none))
          else parse_fqn (serializeUrl url)) = some caps ∧
        img = { registry := mkRegistry url
                fqn := caps.1.asString
                name := (parse_image_name caps.1).asString
                tag := caps.2.1.map List.asString
                sha256 := caps.2.2.map List.asString } := by
  unfold Image.new at h
  split at h
  · exact absurd h (by simp)
  · rename_i url hurl
    simp only [Option.map_eq_some'] at h
    rcases h with ⟨caps, hcaps, himg⟩
    exact ⟨url, hurl, caps, hcaps, himg.symm⟩

theorem splitLastAt_none {l : Chars} (h : (splitLastAt l).1 = none) : (splitLastAt l).2 = l := by
  unfold splitLastAt at h ⊢
  split at h
  · simp at h
  · rename_i hmem
    simp [hmem]

theorem splitLastAt_nil : splitLastAt ([] : Chars) = (none, []) := by
  unfold splitLastAt
  simp

theorem hostPortSplit_nil {l : Chars} {inB : Bool}
    (h : hostPortSplit l inB = ([], none)) : l = [] := by
  cases l with
  | nil => rfl
  | cons c r =>
    unfold hostPortSplit at h
    split at h
    · simp at h
    · simp at h

theorem parseHostPort_cases {l : Chars} {hp : Option HostV × Option Nat}
    (h : parseHostPort l = some hp) :
    (l = [] ∧ hp = (none, none)) ∨ hp.1.isSome := by
  unfold parseHostPort at h
  split at h
  · rename_i h1 h2
    exact Or.inl ⟨hostPortSplit_nil (Prod.ext h1 h2), (Option.some.inj h).symm⟩
  · exact absurd h (by simp)
  · split at h
    · split at h
      · exact absurd h (by simp)
      · split at h
        · exact Or.inr (by rw [← Option.some.inj h]; rfl)
        · simp only [Option.map_eq_some'] at h
          rcases h with ⟨po, _, hpo⟩
          exact Or.inr (by rw [← hpo]; rfl)
    · exact absurd h (by simp)
  · split at h
    · exact absurd h (by simp)
    · split at h
      · exact Or.inr (by rw [← Option.some.inj h]; rfl)
      · simp only [Option.map_eq_some'] at h
        rcases h with ⟨po, _, hpo⟩
        exact Or.inr (by rw [← hpo]; rfl)

theorem urlHost_none {s : String} {url : UrlRec} (h : urlParse s = some url) :
    url.host = none ↔ authOf (preprocess s) = [] := by
  obtain ⟨hp, hhp, hguard, hurl⟩ := urlParse_inv h
  constructor
  · intro hn
    have hn' : hp.1 = none := by rw [hurl] at hn; exact hn
    rcases parseHostPort_cases hhp with ⟨hnil, _⟩ | hsome
    · have hcred : (splitLastAt (authOf (preprocess s))).1 = none := by
        cases hc : (splitLastAt (authOf (preprocess s))).1 with
        | none => rfl
        | some ui =>
          exact absurd ⟨by rw [hc]; rfl, by rw [hnil]; rfl⟩ hguard
      have := splitLastAt_none hcred
      rw [hnil] at this
      exact this.symm
    · rw [hn'] at hsome
      simp at hsome
  · intro ha
    have hsl : splitLastAt (authOf (preprocess s)) = (none, []) := by rw [ha, splitLastAt_nil]
    have hpp : parseHostPort (splitLastAt (authOf (preprocess s))).2 = some (none, none) := by
      rw [hsl]
      rfl
    rw [hpp] at hhp
    have := Option.some.inj hhp
    rw [hurl, ← this]

theorem urlHost_none_parts {s : String} {url : UrlRec} (h : urlParse s = some url)
    (hn : url.host = none) :
    authOf (preprocess s) = [] ∧ url.port = none ∧ url.username = [] ∧ url.password = [] := by
  obtain ⟨hp, hhp, hguard, hurl⟩ := urlParse_inv h
  have ha : authOf (preprocess s) = [] := (urlHost_none h).1 hn
  have hsl : splitLastAt (authOf (preprocess s)) = (none, []) := by rw [ha, splitLastAt_nil]
  have hpp : parseHostPort (splitLastAt (authOf (preprocess s))).2 = some (none, none) := by
    rw [hsl]
    rfl
  rw [hpp] at hhp
  have hhp' := Option.some.inj hhp
  refine ⟨ha, ?_, ?_, ?_⟩
  · rw [hurl, ← hhp']
  · rw [hurl]
    simp [hsl, credSplit, encWith]
  · rw [hurl]
    simp [hsl, credSplit, encWith]

theorem mem_trimTrail {l : Chars} {c : Char} (h : c ∈ trimTrail l) : c ∈ l := by
  unfold trimTrail at h
  rw [List.mem_reverse] at h
  have := (List.dropWhile_suffix isC0OrSpace).subset h
  rwa [List.mem_reverse] at this

theorem mem_preprocess {s : String} {c : Char} (h : c ∈ preprocess s) : c ∈ s.toList := by
  unfold preprocess at h
  exact mem_trimTrail (List.mem_filter.1 h).1

theorem takeWhile_congr_mem {p q : Char → Bool} : ∀ {l : Chars},
    (∀ c ∈ l, p c = q c) → l.takeWhile p = l.takeWhile q := by
  intro l
  induction l with
  | nil => intro _; rfl
  | cons c r ih =>
    intro h
    rw [List.takeWhile_cons, List.takeWhile_cons, h c (by simp)]
    split
    · rw [ih (fun x hx => h x (by simp [hx]))]
    · rfl

/-! ## Character ranges of the serialization -/

theorem decDigit_range (n : Nat) : 48 ≤ (decDigit n).toNat ∧ (decDigit n).toNat ≤ 57 := by
  unfold decDigit
  by_cases h : n < 10
  · interval_cases n <;> simp_all
  · rw [List.getD_eq_default _ _ (by simp; omega)]
    decide

theorem hexUp_range (n : Nat) :
    (48 ≤ (hexUp n).toNat ∧ (hexUp n).toNat ≤ 57) ∨
      (65 ≤ (hexUp n).toNat ∧ (hexUp n).toNat ≤ 70) := by
  unfold hexUp
  by_cases h : n < 16
  · interval_cases n <;> simp_all
  · rw [List.getD_eq_default _ _ (by simp; omega)]
    decide

theorem hexLo_range (n : Nat) :
    (48 ≤ (hexLo n).toNat ∧ (hexLo n).toNat ≤ 57) ∨
      (97 ≤ (hexLo n).toNat ∧ (hexLo n).toNat ≤ 102) := by
  unfold hexLo
  by_cases h : n < 16
  · interval_cases n <;> simp_all
  · rw [List.getD_eq_default _ _ (by simp; omega)]
    decide

theorem mem_natDecAux : ∀ {fuel n : Nat} {c : Char}, c ∈ natDecAux fuel n →
    48 ≤ c.toNat ∧ c.toNat ≤ 57 := by
  intro fuel
  induction fuel with
  | zero => intro n c h; simp [natDecAux] at h
  | succ fuel ih =>
    intro n c h
    unfold natDecAux at h
    split at h
    · rw [List.mem_singleton] at h
      subst h
      exact decDigit_range n
    · rw [List.mem_append] at h
      rcases h with h | h
      · exact ih h
      · rw [List.mem_singleton] at h
        subst h
        exact decDigit_range _

theorem mem_natDec {n : Nat} {c : Char} (h : c ∈ natDec n) :
    48 ≤ c.toNat ∧ c.toNat ≤ 57 := mem_natDecAux h

theorem mem_hexLowerAux : ∀ {fuel n : Nat} {c : Char}, c ∈ hexLowerAux fuel n →
    (48 ≤ c.toNat ∧ c.toNat ≤ 57) ∨ (97 ≤ c.toNat ∧ c.toNat ≤ 102) := by
  intro fuel
  induction fuel with
  | zero => intro n c h; simp [hexLowerAux] at h
  | succ fuel ih =>
    intro n c h
    unfold hexLowerAux at h
    split at h
    · rw [List.mem_singleton] at h
      subst h
      exact hexLo_range n
    · rw [List.mem_append] at h
      rcases h with h | h
      · exact ih h
      · rw [List.mem_singleton] at h
        subst h
        exact hexLo_range _

theorem mem_pctByte {b : Nat} {c : Char} (h : c ∈ pctByte b) :
    c = '%' ∨ (48 ≤ c.toNat ∧ c.toNat ≤ 57) ∨ (65 ≤ c.toNat ∧ c.toNat ≤ 70) := by
  simp only [pctByte, List.mem_cons, List.not_mem_nil, or_false] at h
  rcases h with rfl | rfl | rfl
  · exact Or.inl rfl
  · exact Or.inr (hexUp_range _)
  · exact Or.inr (hexUp_range _)

theorem mem_pctEnc {x c : Char} (h : c ∈ pctEnc x) :
    c = '%' ∨ (48 ≤ c.toNat ∧ c.toNat ≤ 57) ∨ (65 ≤ c.toNat ∧ c.toNat ≤ 70) := by
  unfold pctEnc at h
  rw [List.mem_flatMap] at h
  rcases h with ⟨b, _, hb⟩
  exact mem_pctByte hb

theorem mem_encWith {f : Char → Bool} {l : Chars} {c : Char} (h : c ∈ encWith f l) :
    (c ∈ l ∧ f c = false) ∨ c = '%' ∨ (48 ≤ c.toNat ∧ c.toNat ≤ 57) ∨
      (65 ≤ c.toNat ∧ c.toNat ≤ 70) := by
  unfold encWith at h
  rw [List.mem_flatMap] at h
  rcases h with ⟨x, hx, hc⟩
  by_cases hf : f x
  · rw [if_pos hf] at hc
    exact Or.inr (mem_pctEnc hc)
  · rw [if_neg hf] at hc
    rw [List.mem_singleton] at hc
    subst hc
    exact Or.inl ⟨hx, by simpa using hf⟩

theorem mem_joinColon : ∀ {xs : List Chars} {c : Char}, c ∈ joinColon xs →
    c = ':' ∨ ∃ x ∈ xs, c ∈ x := by
  intro xs
  induction xs with
  | nil => intro c h; simp [joinColon] at h
  | cons x r ih =>
    intro c h
    cases r with
    | nil =>
      exact Or.inr ⟨x, by simp, by simpa [joinColon] using h⟩
    | cons y rr =>
      rw [show joinColon (x :: y :: rr) = x ++ ':' :: joinColon (y :: rr) from rfl] at h
      rw [List.mem_append] at h
      rcases h with h | h
      · exact Or.inr ⟨x, by simp, h⟩
      · rw [List.mem_cons] at h
        rcases h with rfl | h
        · exact Or.inl rfl
        · rcases ih h with rfl | ⟨z, hz, hcz⟩
          · exact Or.inl rfl
          · exact Or.inr ⟨z, by simp [hz], hcz⟩

theorem mem_v6Whatwg {a : List Nat} {c : Char} (h : c ∈ v6Whatwg a) :
    c = ':' ∨ (48 ≤ c.toNat ∧ c.toNat ≤ 57) ∨ (97 ≤ c.toNat ∧ c.toNat ≤ 102) := by
  unfold v6Whatwg at h
  have hj : ∀ {xs : List Nat}, c ∈ joinColon (xs.map hexLower) →
      c = ':' ∨ (48 ≤ c.toNat ∧ c.toNat ≤ 57) ∨ (97 ≤ c.toNat ∧ c.toNat ≤ 102) := by
    intro xs hm
    rcases mem_joinColon hm with rfl | ⟨x, hx, hcx⟩
    · exact Or.inl rfl
    · rw [List.mem_map] at hx
      rcases hx with ⟨n, _, rfl⟩
      exact Or.inr (mem_hexLowerAux hcx)
  split at h
  · exact hj h
  · rw [List.mem_append, List.mem_append] at h
    rcases h with (h | h) | h
    · exact hj h
    · rw [List.mem_cons, List.mem_singleton] at h
      rcases h with rfl | rfl
      · exact Or.inl rfl
      · exact Or.inl rfl
    · exact hj h

theorem not_inQuerySet_bounds {c : Char} (h : inQuerySet c = false) :
    0x20 < c.toNat ∧ c.toNat < 0x7F := by
  simp [inQuerySet, inC0Set] at h
  omega

theorem not_inPathSet_bounds {c : Char} (h : inPathSet c = false) :
    0x20 < c.toNat ∧ c.toNat < 0x7F := by
  simp [inPathSet, inQuerySet, inC0Set] at h
  omega

theorem not_inUserSet_bounds {c : Char} (h : inUserSet c = false) :
    0x20 < c.toNat ∧ c.toNat < 0x7F := by
  simp [inUserSet, inPathSet, inQuerySet, inC0Set] at h
  omega

theorem not_inFragSet_bounds {c : Char} (h : inFragSet c = false) :
    0x20 < c.toNat ∧ c.toNat < 0x7F := by
  simp [inFragSet, inC0Set] at h
  omega

theorem host_char_bounds {c : Char} (h1 : inC0Set c = false) (h2 : forbiddenHost c = false) :
    0x20 < c.toNat ∧ c.toNat < 0x7F := by
  simp [inC0Set] at h1
  simp [forbiddenHost] at h2
  omega

theorem range_not_sets {c : Char}
    (h : (48 ≤ c.toNat ∧ c.toNat ≤ 57) ∨ (65 ≤ c.toNat ∧ c.toNat ≤ 70) ∨
      (97 ≤ c.toNat ∧ c.toNat ≤ 102)) :
    inPathSet c = false ∧ inQuerySet c = false ∧ inFragSet c = false ∧ inUserSet c = false := by
  simp [inPathSet, inQuerySet, inC0Set, inFragSet, inUserSet]
  omega

/-! ## Path and tail structure lemmas -/

theorem splitSlash_ne_nil : ∀ {l : Chars}, splitSlash l ≠ [] := by
  intro l
  induction l with
  | nil => simp [splitSlash]
  | cons c r ih =>
    unfold splitSlash
    split
    · simp
    · split
      · simp
      · simp

theorem splitSlash_mem_noslash : ∀ {l seg : Chars}, seg ∈ splitSlash l → '/' ∉ seg := by
  intro l
  induction l with
  | nil =>
    intro seg h
    rw [show splitSlash [] = [[]] from rfl, List.mem_singleton] at h
    subst h
    simp
  | cons c r ih =>
    intro seg h
    unfold splitSlash at h
    split at h
    · rw [List.mem_cons] at h
      rcases h with rfl | h
      · simp
      · exact ih h
    · rename_i hc
      split at h
      · rename_i s ss hsp
        rw [List.mem_cons] at h
        rcases h with rfl | h
        · intro hm
          rw [List.mem_cons] at hm
          rcases hm with he | hm
          · exact hc he.symm
          · exact ih (by rw [hsp]; exact List.mem_cons_self s ss) hm
        · exact ih (by rw [hsp]; exact List.mem_cons_of_mem s h)
      · rename_i hsp
        rw [List.mem_singleton] at h
        subst h
        intro hm
        rw [List.mem_cons] at hm
        rcases hm with he | hm
        · exact hc he.symm
        · simp at hm

theorem procSegs_ne_nil : ∀ {segs : List Chars} {acc : List Chars},
    segs ≠ [] → procSegs acc segs ≠ [] := by
  intro segs
  induction segs with
  | nil => intro acc h; exact absurd rfl h
  | cons b r ih =>
    intro acc _
    cases r with
    | nil =>
      unfold procSegs
      split
      · simp
      · split <;> simp
    | cons b2 r2 =>
      unfold procSegs
      split
      · exact ih (by simp)
      · split
        · exact ih (by simp)
        · exact ih (by simp)

theorem procSegs_mem : ∀ {segs : List Chars} {acc : List Chars} {e : Chars},
    e ∈ procSegs acc segs →
    e ∈ acc ∨ e = [] ∨ ∃ b ∈ segs, e = encWith inPathSet b ∧
      ¬ isSingleDot e ∧ ¬ isDoubleDot e := by
  intro segs
  induction segs with
  | nil =>
    intro acc e h
    exact Or.inl (by simpa [procSegs] using h)
  | cons b r ih =>
    intro acc e h
    cases r with
    | nil =>
      unfold procSegs at h
      split at h
      · rw [List.mem_append] at h
        rcases h with h | h
        · exact Or.inl (List.dropLast_subset acc h)
        · rw [List.mem_singleton] at h
          exact Or.inr (Or.inl h)
      · split at h
        · rw [List.mem_append] at h
          rcases h with h | h
          · exact Or.inl h
          · rw [List.mem_singleton] at h
            exact Or.inr (Or.inl h)
        · rw [List.mem_append] at h
          rcases h with h | h
          · exact Or.inl h
          · rw [List.mem_singleton] at h
            rename_i hnd hns
            exact Or.inr (Or.inr ⟨b, by simp, h, h ▸ hns, h ▸ hnd⟩)
    | cons b2 r2 =>
      unfold procSegs at h
      split at h
      · rcases ih h with h | h | ⟨x, hx, he, h1, h2⟩
        · exact Or.inl (List.dropLast_subset acc h)
        · exact Or.inr (Or.inl h)
        · exact Or.inr (Or.inr ⟨x, List.mem_cons_of_mem b hx, he, h1, h2⟩)
      · split at h
        · rcases ih h with h | h | ⟨x, hx, he, h1, h2⟩
          · exact Or.inl h
          · exact Or.inr (Or.inl h)
          · exact Or.inr (Or.inr ⟨x, List.mem_cons_of_mem b hx, he, h1, h2⟩)
        · rename_i hnd hns
          rcases ih h with h | h | ⟨x, hx, he, h1, h2⟩
          · rw [List.mem_append] at h
            rcases h with h | h
            · exact Or.inl h
            · rw [List.mem_singleton] at h
              exact Or.inr (Or.inr ⟨b, by simp, h, h ▸ hns, h ▸ hnd⟩)
          · exact Or.inr (Or.inl h)
          · exact Or.inr (Or.inr ⟨x, List.mem_cons_of_mem b hx, he, h1, h2⟩)

theorem parseTail_fst_slash {r : Chars} : (parseTail ('/' :: r)).1 =
    procSegs [] (splitSlash ((('/' :: r).takeWhile (fun x => x ≠ '?' ∧ x ≠ '#')).drop 1)) := by
  simp only [parseTail]
  rw [if_pos trivial]
  split <;> rfl

theorem parseTail_path_good {rest : Chars} :
    ∀ seg ∈ (parseTail rest).1, ('/' : Char) ∉ seg ∧ (∀ c ∈ seg, inPathSet c = false) ∧
      ¬ isSingleDot seg ∧ ¬ isDoubleDot seg := by
  intro seg hseg
  cases rest with
  | nil => simp [parseTail] at hseg
  | cons c r =>
    by_cases hc : c = '/'
    · subst hc
      rw [parseTail_fst_slash] at hseg
      rcases procSegs_mem hseg with h | h | ⟨b, hb, rfl, hns, hnd⟩
      · simp at h
      · subst h
        exact ⟨by simp, by simp, by decide, by decide⟩
      · have hbs : '/' ∉ b := splitSlash_mem_noslash hb
        refine ⟨?_, ?_, hns, hnd⟩
        · intro hmem
          rcases mem_encWith hmem with ⟨hin, _⟩ | h | h | h
          · exact hbs hin
          · exact absurd h (by decide)
          · exact absurd h (by decide)
          · exact absurd h (by decide)
        · intro x hx
          rcases mem_encWith hx with ⟨_, hf⟩ | rfl | h | h
          · exact hf
          · decide
          · exact (range_not_sets (Or.inl h)).1
          · exact (range_not_sets (Or.inr (Or.inl h))).1
    · simp only [parseTail] at hseg
      rw [if_neg hc] at hseg
      by_cases hq : c = '?'
      · subst hq
        rw [if_pos rfl] at hseg
        split at hseg <;> simp at hseg
      · rw [if_neg hq] at hseg
        simp at hseg

theorem parseTail_query_enc {rest : Chars} {q : Chars}
    (h : (parseTail rest).2.1 = some q) : ∃ qs, q = encWith inQuerySet qs := by
  cases rest with
  | nil => simp [parseTail] at h
  | cons c r =>
    by_cases hc : c = '/'
    · subst hc
      simp only [parseTail] at h
      rw [if_pos trivial] at h
      split at h
      · rename_i qr heq
        split at h
        · exact ⟨_, (Option.some.inj h).symm⟩
        · exact ⟨_, (Option.some.inj h).symm⟩
      · simp at h
      · simp at h
    · simp only [parseTail] at h
      rw [if_neg hc] at h
      by_cases hq : c = '?'
      · subst hq
        rw [if_pos rfl] at h
        split at h
        · exact ⟨_, (Option.some.inj h).symm⟩
        · exact ⟨_, (Option.some.inj h).symm⟩
      · rw [if_neg hq] at h
        simp at h

theorem parseTail_frag_enc {rest : Chars} {fr : Chars}
    (h : (parseTail rest).2.2 = some fr) : ∃ fs, fr = encWith inFragSet fs := by
  cases rest with
  | nil => simp [parseTail] at h
  | cons c r =>
    by_cases hc : c = '/'
    · subst hc
      simp only [parseTail] at h
      rw [if_pos trivial] at h
      split at h
      · rename_i qr heq
        split at h
        · simp at h
        · exact ⟨_, (Option.some.inj h).symm⟩
      · exact ⟨_, (Option.some.inj h).symm⟩
      · simp at h
    · simp only [parseTail] at h
      rw [if_neg hc] at h
      by_cases hq : c = '?'
      · subst hq
        rw [if_pos rfl] at h
        split at h
        · simp at h
        · exact ⟨_, (Option.some.inj h).symm⟩
      · rw [if_neg hq] at h
        exact ⟨_, (Option.some.inj h).symm⟩

theorem parseTail_empty {rest : Chars}
    (h1 : (parseTail rest).1 = []) (h2 : (parseTail rest).2.1 = none)
    (h3 : (parseTail rest).2.2 = none) : rest = [] := by
  cases rest with
  | nil => rfl
  | cons c r =>
    exfalso
    by_cases hc : c = '/'
    · subst hc
      rw [parseTail_fst_slash] at h1
      exact procSegs_ne_nil splitSlash_ne_nil h1
    · by_cases hq : c = '?'
      · subst hq
        simp only [parseTail] at h2
        rw [if_pos trivial] at h2
        split at h2 <;> simp at h2
      · simp only [parseTail] at h3
        rw [if_neg hc, if_neg hq] at h3
        simp at h3

/-! ## Serialization structure lemmas -/

theorem serialTail_def (u : UrlRec) :
    serialTail u = userPart u ++ hostSer u.host ++ portPart u.port ++ pathSer u.path ++
      queryPart u.query ++ fragPart u.fragment := by
  obtain ⟨un, pw, ho, po, pa, qu, fr⟩ := u
  cases po <;> cases qu <;> cases fr <;> rfl

theorem encWith_append (f : Char → Bool) (a b : Chars) :
    encWith f (a ++ b) = encWith f a ++ encWith f b := by
  simp [encWith]

theorem encWith_id_of_not {f : Char → Bool} : ∀ {l : Chars}, (∀ c ∈ l, f c = false) →
    encWith f l = l := by
  intro l
  induction l with
  | nil => intro _; rfl
  | cons c r ih =>
    intro h
    unfold encWith
    rw [List.flatMap_cons]
    have hc : f c = false := h c (by simp)
    rw [hc]
    have ihr := ih (fun x hx => h x (by simp [hx]))
    unfold encWith at ihr
    rw [ihr]
    rfl

theorem pctEnc_ne_nil {c : Char} : pctEnc c ≠ [] := by
  unfold pctEnc utf8Bytes
  split
  · simp [pctByte]
  · split
    · simp [pctByte]
    · split
      · simp [pctByte]
      · simp [pctByte]

theorem encWith_ne_nil {f : Char → Bool} {c : Char} {r : Chars} : encWith f (c :: r) ≠ [] := by
  unfold encWith
  rw [List.flatMap_cons]
  intro h
  rw [List.append_eq_nil] at h
  rcases h with ⟨h1, _⟩
  split at h1
  · exact pctEnc_ne_nil h1
  · simp at h1

theorem not_dot_of_long {l : Chars} (h : 7 ≤ l.length) :
    isSingleDot l = false ∧ isDoubleDot l = false := by
  have hlen : (dotLower l).length = l.length := by simp [dotLower]
  constructor
  · rw [Bool.eq_false_iff]
    intro hd
    have hd' : dotLower l = ['.'] ∨ dotLower l = ['%', '2', 'e'] := by
      simpa [isSingleDot] using hd
    rcases hd' with hx | hx <;> (rw [hx] at hlen; simp at hlen; omega)
  · rw [Bool.eq_false_iff]
    intro hd
    have hd' : dotLower l = ['.', '.'] ∨ dotLower l = ['.', '%', '2', 'e'] ∨
        dotLower l = ['%', '2', 'e', '.'] ∨ dotLower l = ['%', '2', 'e', '%', '2', 'e'] := by
      simpa [isDoubleDot] using hd
    rcases hd' with hx | hx | hx | hx <;> (rw [hx] at hlen; simp at hlen; omega)

theorem splitSlash_noslash : ∀ {y : Chars}, ('/' : Char) ∉ y → splitSlash y = [y] := by
  intro y
  induction y with
  | nil => intro _; rfl
  | cons c r ih =>
    intro h
    have hc : c ≠ '/' := fun he => h (by simp [he])
    simp only [splitSlash]
    rw [if_neg hc, ih (fun hm => h (by simp [hm]))]

theorem splitSlash_front_slash : ∀ {a : Chars} {t : Chars}, ('/' : Char) ∉ a →
    splitSlash (a ++ '/' :: t) = a :: splitSlash t := by
  intro a
  induction a with
  | nil =>
    intro t _
    rw [List.nil_append]
    simp only [splitSlash]
    rw [if_pos trivial]
  | cons c a2 ih =>
    intro t h
    have hc : c ≠ '/' := fun he => h (by simp [he])
    rw [List.cons_append]
    simp only [splitSlash]
    rw [if_neg hc, ih (fun hm => h (by simp [hm]))]

theorem splitSlash_concat {y : Chars} (hy : ('/' : Char) ∉ y) :
    ∀ {l : Chars}, ∃ front last, splitSlash l = front ++ [last] ∧
      splitSlash (l ++ y) = front ++ [last ++ y] := by
  intro l
  induction l with
  | nil =>
    exact ⟨[], [], rfl, by rw [List.nil_append, splitSlash_noslash hy]; rfl⟩
  | cons c r ih =>
    obtain ⟨front, last, h1, h2⟩ := ih
    by_cases hc : c = '/'
    · refine ⟨[] :: front, last, ?_, ?_⟩
      · simp only [splitSlash]
        rw [if_pos hc, h1]
        rfl
      · rw [List.cons_append]
        simp only [splitSlash]
        rw [if_pos hc, h2]
        rfl
    · cases front with
      | nil =>
        refine ⟨[], c :: last, ?_, ?_⟩
        · simp only [splitSlash]
          rw [if_neg hc, h1]
          rfl
        · rw [List.cons_append]
          simp only [splitSlash]
          rw [if_neg hc, h2]
          rfl
      | cons i0 irest =>
        refine ⟨(c :: i0) :: irest, last, ?_, ?_⟩
        · simp only [splitSlash]
          rw [if_neg hc, h1]
          rfl
        · rw [List.cons_append]
          simp only [splitSlash]
          rw [if_neg hc, h2]
          rfl

theorem procSegs_last {b : Chars} (h1 : isSingleDot (encWith inPathSet b) = false)
    (h2 : isDoubleDot (encWith inPathSet b) = false) :
    ∀ (front acc : List Chars),
      ∃ acc2, procSegs acc (front ++ [b]) = acc2 ++ [encWith inPathSet b] := by
  intro front
  induction front with
  | nil =>
    intro acc
    refine ⟨acc, ?_⟩
    rw [List.nil_append]
    simp only [procSegs]
    rw [if_neg (by simp [h2]), if_neg (by simp [h1])]
  | cons a rest ih =>
    intro acc
    rw [List.cons_append, procSegs.eq_3 acc a (rest ++ [b]) (by simp)]
    split
    · exact ih _
    · split
      · exact ih _
      · exact ih _

theorem parseTail_no_qf {r : Chars} (h : ∀ c ∈ r, c ≠ '?' ∧ c ≠ '#') :
    parseTail ('/' :: r) = (procSegs [] (splitSlash r), none, none) := by
  have hdw : ('/' :: r).dropWhile (fun x => x ≠ '?' ∧ x ≠ '#') = [] := by
    rw [List.dropWhile_eq_nil_iff]
    intro x hx
    rw [List.mem_cons] at hx
    rcases hx with rfl | hx
    · decide
    · simpa using h x hx
  have htw : ('/' :: r).takeWhile (fun x => x ≠ '?' ∧ x ≠ '#') = '/' :: r := by
    rw [List.takeWhile_eq_self_iff]
    intro x hx
    rw [List.mem_cons] at hx
    rcases hx with rfl | hx
    · decide
    · simpa using h x hx
  simp only [parseTail]
  rw [if_pos trivial, hdw, htw]
  rfl

theorem authOf_append_restOf (l : Chars) : authOf l ++ restOf l = l :=
  List.takeWhile_append_dropWhile _ _

theorem parse_image_name_no_nl {l : Chars} (h : ('\n' : Char) ∉ l) :
    parse_image_name l = l := by
  unfold parse_image_name
  have htw : l.reverse.takeWhile (fun c => c ≠ '\n') = l.reverse := by
    rw [List.takeWhile_eq_self_iff]
    intro x hx
    rw [List.mem_reverse] at hx
    simp only [decide_eq_true_eq]
    exact fun he => h (he ▸ hx)
  rw [htw, List.reverse_reverse]

theorem takeWhile_concat_stop {p : Char → Bool} {b : Chars}
    (hb : ∀ x, b.head? = some x → p x = false) :
    ∀ {a : Chars}, (∀ c ∈ a, p c = true) →
      (a ++ b).takeWhile p = a ∧ (a ++ b).dropWhile p = b := by
  intro a
  induction a with
  | nil =>
    intro _
    rw [List.nil_append]
    cases b with
    | nil => exact ⟨rfl, rfl⟩
    | cons x t =>
      have hx : p x = false := hb x rfl
      rw [List.takeWhile_cons, List.dropWhile_cons, hx]
      exact ⟨by simp, by simp⟩
  | cons c a2 ih =>
    intro h
    have hc : p c = true := h c (by simp)
    rw [List.cons_append, List.takeWhile_cons, List.dropWhile_cons, hc]
    have hr := ih (fun x hx => h x (by simp [hx]))
    exact ⟨by simp [hr.1], by simp [hr.2]⟩

theorem pathSer_cons (s0 : Chars) (rest : List Chars) :
    pathSer (s0 :: rest) = '/' :: (s0 ++ pathSer rest) := by
  simp [pathSer]

theorem pathSer_append_single (acc : List Chars) (z : Chars) :
    pathSer (acc ++ [z]) = pathSer acc ++ '/' :: z := by
  simp [pathSer]

theorem splitSlash_pathSer : ∀ {segs : List Chars}, segs ≠ [] →
    (∀ seg ∈ segs, ('/' : Char) ∉ seg) → splitSlash ((pathSer segs).drop 1) = segs := by
  intro segs
  induction segs with
  | nil => intro h _; exact absurd rfl h
  | cons s0 rest ih =>
    intro _ hns
    rw [pathSer_cons]
    show splitSlash (s0 ++ pathSer rest) = s0 :: rest
    cases rest with
    | nil =>
      rw [show pathSer [] = [] from rfl, List.append_nil]
      exact splitSlash_noslash (hns s0 (by simp))
    | cons s1 r2 =>
      rw [pathSer_cons]
      rw [splitSlash_front_slash (hns s0 (by simp))]
      rw [show s1 ++ pathSer r2 = (pathSer (s1 :: r2)).drop 1 from by rw [pathSer_cons]; rfl]
      rw [ih (by simp) (fun seg hseg => hns seg (by simp [hseg]))]

theorem procSegs_id : ∀ {segs : List Chars} {acc : List Chars},
    (∀ seg ∈ segs, encWith inPathSet seg = seg ∧ isSingleDot seg = false ∧
      isDoubleDot seg = false) →
    procSegs acc segs = acc ++ segs := by
  intro segs
  induction segs with
  | nil => intro acc _; simp [procSegs]
  | cons b rest ih =>
    intro acc h
    obtain ⟨he, hs, hd⟩ := h b (by simp)
    cases rest with
    | nil =>
      rw [procSegs.eq_2, he, if_neg (by simp [hd]), if_neg (by simp [hs])]
    | cons b2 r2 =>
      rw [procSegs.eq_3 acc b (b2 :: r2) (by simp), he, if_neg (by simp [hd]),
        if_neg (by simp [hs]), ih (fun seg hseg => h seg (by simp [hseg]))]
      simp

theorem path_recover {path : List Chars} (hp : path ≠ [])
    (hsegs : ∀ seg ∈ path, ('/' : Char) ∉ seg ∧ (∀ c ∈ seg, inPathSet c = false) ∧
      ¬ isSingleDot seg ∧ ¬ isDoubleDot seg) :
    procSegs [] (splitSlash ((pathSer path).drop 1)) = path := by
  rw [splitSlash_pathSer hp (fun seg hseg => (hsegs seg hseg).1)]
  rw [procSegs_id (fun seg hseg => ⟨encWith_id_of_not (hsegs seg hseg).2.1,
    by simpa using (hsegs seg hseg).2.2.1, by simpa using (hsegs seg hseg).2.2.2⟩)]
  simp

theorem encQuery_closed {l : Chars} {c : Char} (h : c ∈ encWith inQuerySet l) :
    inQuerySet c = false := by
  rcases mem_encWith h with ⟨_, hf⟩ | rfl | hr | hr
  · exact hf
  · decide
  · exact (range_not_sets (Or.inl hr)).2.1
  · exact (range_not_sets (Or.inr (Or.inl hr))).2.1

theorem encFrag_closed {l : Chars} {c : Char} (h : c ∈ encWith inFragSet l) :
    inFragSet c = false := by
  rcases mem_encWith h with ⟨_, hf⟩ | rfl | hr | hr
  · exact hf
  · decide
  · exact (range_not_sets (Or.inl hr)).2.2.1
  · exact (range_not_sets (Or.inr (Or.inl hr))).2.2.1

theorem enc_gt20_of_kept {f : Char → Bool} {l : Chars} {c : Char}
    (hb : ∀ x ∈ l, f x = false → 0x20 < x.toNat) (h : c ∈ encWith f l) :
    0x20 < c.toNat := by
  rcases mem_encWith h with ⟨hm, hf⟩ | rfl | hr | hr
  · exact hb c hm hf
  · decide
  · omega
  · omega

theorem parseHostPort_dom {l : Chars} {hp : Option HostV × Option Nat} {hcs : Chars}
    (h : parseHostPort l = some hp) (hh : hp.1 = some (.dom hcs)) :
    ∃ raw, raw ≠ [] ∧ (∀ c ∈ raw, forbiddenHost c = false) ∧
      hcs = encWith inC0Set raw := by
  unfold parseHostPort at h
  split at h
  · rw [← Option.some.inj h] at hh
    simp at hh
  · exact absurd h (by simp)
  · split at h
    · split at h
      · exact absurd h (by simp)
      · split at h
        · rw [← Option.some.inj h] at hh
          simp at hh
        · simp only [Option.map_eq_some'] at h
          rcases h with ⟨po, _, hpo⟩
          rw [← hpo] at hh
          simp at hh
    · exact absurd h (by simp)
  · rename_i c hbr pb heq
    split at h
    · exact absurd h (by simp)
    · rename_i hv hop
      unfold parseOpaque at hop
      split at hop
      · exact absurd hop (by simp)
      · rename_i hforb
        have hv' : hv = .dom (encWith inC0Set (c :: hbr)) := (Option.some.inj hop).symm
        have hfirst : hp.1 = some hv := by
          split at h
          · rw [← Option.some.inj h]
          · simp only [Option.map_eq_some'] at h
            rcases h with ⟨po, _, hpo⟩
            rw [← hpo]
        rw [hfirst, hv'] at hh
        have hcs' : hcs = encWith inC0Set (c :: hbr) :=
          (HostV.dom.inj (Option.some.inj hh)).symm
        refine ⟨c :: hbr, by simp, ?_, hcs'⟩
        intro x hx
        by_contra hxf
        exact hforb (List.any_eq_true.2 ⟨x, hx, by simpa using hxf⟩)

theorem alnum_not_path {c : Char}
    (h : (48 ≤ c.toNat ∧ c.toNat ≤ 57) ∨ (65 ≤ c.toNat ∧ c.toNat ≤ 90) ∨
      (97 ≤ c.toNat ∧ c.toNat ≤ 122)) : inPathSet c = false := by
  simp [inPathSet, inQuerySet, inC0Set]
  omega

/-- When the prepared input ends in a run `y` of path-safe characters and its
authority is followed by a slash (and the input has no `?` or `#`), the whole
serialized URL ends in the same run `y`, which sits inside the final
(necessarily non-dot) path segment. -/
theorem serial_suffix {s : String} {url : UrlRec} {w y : Chars}
    (hurl : urlParse s = some url)
    (hpre : preprocess s = w ++ y)
    (hy_enc : ∀ c ∈ y, inPathSet c = false)
    (hy_sl : ('/' : Char) ∉ y)
    (hy_len : 7 ≤ y.length)
    (hslash : (restOf (preprocess s)).head? = some '/')
    (hq : ('?' : Char) ∉ preprocess s) (hh : ('#' : Char) ∉ preprocess s) :
    ∃ W, serializeUrl url = W ++ y ∧ url.path ≠ [] := by
  obtain ⟨hp, hhp, hguard, hurl_eq⟩ := urlParse_inv hurl
  have hy_mem : ∀ c ∈ y, c ∈ preprocess s := fun c hc =>
    hpre ▸ List.mem_append_right w hc
  have hdw_y : List.dropWhile (fun c => ¬ isAuthEnd c) y = [] := by
    rw [List.dropWhile_eq_nil_iff]
    intro x hx
    have h1 : x ≠ '/' := fun he => hy_sl (he ▸ hx)
    have h2 : x ≠ '?' := fun he => hq (he ▸ hy_mem x hx)
    have h3 : x ≠ '#' := fun he => hh (he ▸ hy_mem x hx)
    simp [isAuthEnd, h1, h2, h3]
  have hne : ((w.dropWhile (fun c => ¬ isAuthEnd c)).isEmpty = true) → False := by
    intro hemp
    have hre : restOf (preprocess s) = List.dropWhile (fun c => ¬ isAuthEnd c) y := by
      unfold restOf
      rw [hpre, List.dropWhile_append, if_pos hemp]
    rw [hdw_y] at hre
    rw [hre] at hslash
    simp at hslash
  have hro : restOf (preprocess s) = w.dropWhile (fun c => ¬ isAuthEnd c) ++ y := by
    unfold restOf
    rw [hpre, List.dropWhile_append, if_neg hne]
  rw [hro] at hslash
  rcases hw2 : w.dropWhile (fun c => ¬ isAuthEnd c) with _ | ⟨c0, w3⟩
  · exfalso
    exact hne (by rw [hw2]; rfl)
  · rw [hw2] at hslash hro
    have hc0 : c0 = '/' := by simpa using hslash
    subst hc0
    rw [List.cons_append] at hro
    have hsub : ∀ c ∈ restOf (preprocess s), c ∈ preprocess s :=
      fun c hc => (List.dropWhile_suffix _).subset hc
    have hnoqf : ∀ c ∈ w3 ++ y, c ≠ '?' ∧ c ≠ '#' := by
      intro c hc
      have hcin : c ∈ restOf (preprocess s) := by
        rw [hro]
        exact List.mem_cons_of_mem _ hc
      exact ⟨fun he => hq (he ▸ hsub c hcin), fun he => hh (he ▸ hsub c hcin)⟩
    have hpt : parseTail (restOf (preprocess s)) =
        (procSegs [] (splitSlash (w3 ++ y)), none, none) := by
      rw [hro]
      exact parseTail_no_qf hnoqf
    have hP : url.path = (parseTail (restOf (preprocess s))).1 := by rw [hurl_eq]
    have hQ : url.query = (parseTail (restOf (preprocess s))).2.1 := by rw [hurl_eq]
    have hF : url.fragment = (parseTail (restOf (preprocess s))).2.2 := by rw [hurl_eq]
    rw [hpt] at hP hQ hF
    obtain ⟨front, last, hsp1, hsp2⟩ := @splitSlash_concat y hy_sl w3
    have hey : encWith inPathSet (last ++ y) = encWith inPathSet last ++ y := by
      rw [encWith_append, encWith_id_of_not hy_enc]
    have hlen : 7 ≤ (encWith inPathSet (last ++ y)).length := by
      rw [hey, List.length_append]
      omega
    obtain ⟨hnd1, hnd2⟩ := not_dot_of_long hlen
    obtain ⟨acc2, hps⟩ := procSegs_last hnd1 hnd2 front []
    rw [hsp2, hps] at hP
    have hqn : url.query = none := hQ
    have hfn : url.fragment = none := hF
    refine ⟨regPre ++ userPart url ++ hostSer url.host ++ portPart url.port ++
      (pathSer acc2 ++ ('/' :: encWith inPathSet last)), ?_, ?_⟩
    · rw [show serializeUrl url = regPre ++ serialTail url from rfl, serialTail_def]
      rw [hP, hqn, hfn, hey, pathSer_append_single]
      simp [queryPart, fragPart, List.append_assoc]
    · rw [hP]
      simp

/-- Every character of the serialized tail of a parsed URL is strictly above
the space character: every chunk is either a fixed separator or output of a
percent-encode set whose kept characters are bounded, so no control
character, space, tab or newline survives into the serialization. -/
theorem serialTail_gt20 {s : String} {url : UrlRec} (hurl : urlParse s = some url) :
    ∀ c ∈ serialTail url, 0x20 < c.toNat := by
  obtain ⟨hp, hhp, hguard, hurl_eq⟩ := urlParse_inv hurl
  intro c hc
  rw [serialTail_def] at hc
  simp only [List.mem_append] at hc
  rcases hc with ((((hc | hc) | hc) | hc) | hc) | hc
  · unfold userPart at hc
    split at hc
    · simp at hc
    · simp only [List.mem_append] at hc
      have husr : url.username = encWith inUserSet
          (credSplit (splitLastAt (authOf (preprocess s))).1).1 := by rw [hurl_eq]
      have hpwd : url.password = encWith inUserSet
          (credSplit (splitLastAt (authOf (preprocess s))).1).2 := by rw [hurl_eq]
      rcases hc with (hc | hc) | hc
      · rw [husr] at hc
        exact enc_gt20_of_kept (fun x _ hx => (not_inUserSet_bounds hx).1) hc
      · split at hc
        · simp at hc
        · rw [List.mem_cons] at hc
          rcases hc with rfl | hc
          · decide
          · rw [hpwd] at hc
            exact enc_gt20_of_kept (fun x _ hx => (not_inUserSet_bounds hx).1) hc
      · rw [List.mem_singleton] at hc
        subst hc
        decide
  · cases hho : url.host with
    | none =>
      rw [hho] at hc
      simp [hostSer] at hc
    | some hv =>
      rw [hho] at hc
      cases hv with
      | dom hcs =>
        have hh1 : hp.1 = some (.dom hcs) := by rw [hurl_eq] at hho; exact hho
        obtain ⟨raw, hne, hforb, hmk⟩ := parseHostPort_dom hhp hh1
        rw [show hostSer (some (.dom hcs)) = hcs from rfl, hmk] at hc
        exact enc_gt20_of_kept
          (fun x hxm hx0 => (host_char_bounds hx0 (hforb x hxm)).1) hc
      | v6 a =>
        rw [show hostSer (some (.v6 a)) = '[' :: v6Whatwg a ++ [']'] from rfl] at hc
        simp only [List.mem_cons, List.mem_append, List.mem_singleton, List.not_mem_nil,
          or_false] at hc
        rcases hc with (rfl | hc) | rfl
        · decide
        · rcases mem_v6Whatwg hc with rfl | hr | hr
          · decide
          · omega
          · omega
        · decide
  · cases hpo : url.port with
    | none =>
      rw [hpo] at hc
      simp [portPart] at hc
    | some p =>
      rw [hpo] at hc
      rw [show portPart (some p) = ':' :: natDec p from rfl, List.mem_cons] at hc
      rcases hc with rfl | hc
      · decide
      · have := mem_natDec hc
        omega
  · unfold pathSer at hc
    rw [List.mem_flatMap] at hc
    obtain ⟨seg, hseg, hcs⟩ := hc
    rw [List.mem_cons] at hcs
    rcases hcs with rfl | hcs
    · decide
    · have hsg : ∀ x ∈ seg, inPathSet x = false := by
        have hP : url.path = (parseTail (restOf (preprocess s))).1 := by rw [hurl_eq]
        rw [hP] at hseg
        exact (parseTail_path_good seg hseg).2.1
      exact (not_inPathSet_bounds (hsg c hcs)).1
  · cases hqv : url.query with
    | none =>
      rw [hqv] at hc
      simp [queryPart] at hc
    | some q =>
      rw [hqv] at hc
      rw [show queryPart (some q) = '?' :: q from rfl, List.mem_cons] at hc
      rcases hc with rfl | hc
      · decide
      · have hQ : url.query = (parseTail (restOf (preprocess s))).2.1 := by rw [hurl_eq]
        obtain ⟨qs, hqs⟩ := parseTail_query_enc (by rw [← hQ]; exact hqv)
        rw [hqs] at hc
        exact enc_gt20_of_kept (fun x _ hx => (not_inQuerySet_bounds hx).1) hc
  · cases hfv : url.fragment with
    | none =>
      rw [hfv] at hc
      simp [fragPart] at hc
    | some fv =>
      rw [hfv] at hc
      rw [show fragPart (some fv) = '#' :: fv from rfl, List.mem_cons] at hc
      rcases hc with rfl | hc
      · decide
      · have hF : url.fragment = (parseTail (restOf (preprocess s))).2.2 := by rw [hurl_eq]
        obtain ⟨fs, hfs⟩ := parseTail_frag_enc (by rw [← hF]; exact hfv)
        rw [hfs] at hc
        exact enc_gt20_of_kept (fun x _ hx => (not_inFragSet_bounds hx).1) hc

theorem dropWhile_of_false {p : Char → Bool} : ∀ {l : Chars}, (∀ c ∈ l, p c = false) →
    l.dropWhile p = l := by
  intro l
  cases l with
  | nil => intro _; rfl
  | cons c r =>
    intro h
    rw [List.dropWhile_cons, h c (by simp)]
    simp

theorem preprocess_of_gt20 {l : Chars} (h : ∀ c ∈ l, 0x20 < c.toNat) :
    preprocess (l.asString) = l := by
  unfold preprocess trimTrail
  rw [List.toList_asString]
  rw [dropWhile_of_false (fun c hc => by
    have hb := h c (List.mem_reverse.1 hc)
    simp [isC0OrSpace]
    omega)]
  rw [List.reverse_reverse]
  rw [List.filter_eq_self.2 (fun c hc => by
    have hb := h c hc
    simp [isTabNl]
    omega)]

theorem restOf_of_authOf_nil : ∀ {t : Chars}, authOf t = [] → restOf t = t := by
  intro t
  cases t with
  | nil => intro _; rfl
  | cons c r =>
    intro h
    unfold authOf at h
    rw [List.takeWhile_cons] at h
    unfold restOf
    rw [List.dropWhile_cons]
    split at h
    · simp at h
    · rename_i hc
      rw [if_neg hc]

theorem urlParse_tailonly {σ : String} {t : Chars} (hpp : preprocess σ = t)
    (hauth : authOf t = []) :
    urlParse σ = some ⟨[], [], none, none,
      (parseTail t).1, (parseTail t).2.1, (parseTail t).2.2⟩ := by
  unfold urlParse
  rw [hpp, hauth, restOf_of_authOf_nil hauth, splitLastAt_nil]
  rw [if_neg (by simp)]
  rfl

theorem parseTail_reassemble_nopath {q fr : Option Chars}
    (hq : ∀ qc, q = some qc → ∀ c ∈ qc, inQuerySet c = false)
    (hf : ∀ fc, fr = some fc → ∀ c ∈ fc, inFragSet c = false) :
    parseTail (queryPart q ++ fragPart fr) = ([], q, fr) := by
  cases q with
  | none =>
    cases fr with
    | none => rfl
    | some fc =>
      show parseTail ('#' :: fc) = ([], none, some fc)
      simp only [parseTail]
      rw [if_neg (by decide), if_neg (by decide)]
      rw [encWith_id_of_not (hf fc rfl)]
  | some qc =>
    have hqc := hq qc rfl
    have hnh : ('#' : Char) ∉ qc := fun hm => by
      have hb := hqc _ hm
      rw [show inQuerySet '#' = true from by decide] at hb
      exact absurd hb (by simp)
    have hdwq : ∀ x ∈ qc, decide (x ≠ '#') = true := by
      intro x hx
      simp only [decide_eq_true_eq]
      intro he
      exact hnh (he ▸ hx)
    have htwq : qc.takeWhile (fun x => x ≠ '#') = qc :=
      List.takeWhile_eq_self_iff.2 hdwq
    cases fr with
    | none =>
      show parseTail ('?' :: (qc ++ [])) = ([], some qc, none)
      rw [List.append_nil]
      simp only [parseTail]
      rw [if_neg (by decide), if_pos trivial]
      rw [htwq, encWith_id_of_not hqc]
      rw [List.dropWhile_eq_nil_iff.2 hdwq]
    | some fc =>
      show parseTail ('?' :: (qc ++ '#' :: fc)) = ([], some qc, some fc)
      simp only [parseTail]
      rw [if_neg (by decide), if_pos trivial]
      obtain ⟨htw, hdw⟩ := @takeWhile_concat_stop (fun x => decide (x ≠ '#')) ('#' :: fc)
        (fun x hx => by
          have hx2 : x = '#' := (Option.some.inj hx).symm
          rw [hx2]
          decide)
        qc hdwq
      rw [htw, hdw, encWith_id_of_not hqc]
      simp only []
      rw [encWith_id_of_not (hf fc rfl)]

theorem parseTail_reassemble {path : List Chars} {q fr : Option Chars}
    (hpne : path ≠ [])
    (hsegs : ∀ seg ∈ path, ('/' : Char) ∉ seg ∧ (∀ c ∈ seg, inPathSet c = false) ∧
      ¬ isSingleDot seg ∧ ¬ isDoubleDot seg)
    (hq : ∀ qc, q = some qc → ∀ c ∈ qc, inQuerySet c = false)
    (hf : ∀ fc, fr = some fc → ∀ c ∈ fc, inFragSet c = false) :
    parseTail (pathSer path ++ queryPart q ++ fragPart fr) = (path, q, fr) := by
  cases path with
  | nil => exact absurd rfl hpne
  | cons s0 rest =>
    have hpchars : ∀ c ∈ s0 ++ pathSer rest, c ≠ '?' ∧ c ≠ '#' := by
      intro c hc
      have hc2 : c ∈ pathSer (s0 :: rest) := by
        rw [pathSer_cons]
        exact List.mem_cons_of_mem _ hc
      unfold pathSer at hc2
      rw [List.mem_flatMap] at hc2
      obtain ⟨seg, hseg, hcs⟩ := hc2
      rw [List.mem_cons] at hcs
      rcases hcs with rfl | hcs
      · exact ⟨by decide, by decide⟩
      · have hps := (hsegs seg hseg).2.1 c hcs
        constructor
        · intro he
          rw [he] at hps
          exact absurd hps (by decide)
        · intro he
          rw [he] at hps
          exact absurd hps (by decide)
    have hpr : procSegs [] (splitSlash (s0 ++ pathSer rest)) = s0 :: rest := by
      have hpr0 := path_recover (show s0 :: rest ≠ [] by simp) hsegs
      rw [pathSer_cons, List.drop_one, List.tail_cons] at hpr0
      exact hpr0
    cases hqv : q with
    | none =>
      cases hfv : fr with
      | none =>
        rw [pathSer_cons, show queryPart none = [] from rfl, show fragPart none = [] from rfl,
          List.append_nil, List.append_nil]
        rw [parseTail_no_qf hpchars, hpr]
      | some fc =>
        have hfc := hf fc hfv
        rw [pathSer_cons, show queryPart none = [] from rfl, List.append_nil,
          show fragPart (some fc) = '#' :: fc from rfl]
        rw [show (('/' :: (s0 ++ pathSer rest)) ++ '#' :: fc : Chars) =
          '/' :: ((s0 ++ pathSer rest) ++ '#' :: fc) from by simp]
        simp only [parseTail]
        rw [if_pos trivial]
        obtain ⟨htw, hdw⟩ := @takeWhile_concat_stop
          (fun x => decide (x ≠ '?' ∧ x ≠ '#')) ('#' :: fc)
          (fun x hx => by
            have hx2 : x = '#' := (Option.some.inj hx).symm
            rw [hx2]
            decide)
          ('/' :: (s0 ++ pathSer rest))
          (fun c hc => by
            simp only [decide_eq_true_eq]
            rw [List.mem_cons] at hc
            rcases hc with rfl | hc
            · exact ⟨by decide, by decide⟩
            · exact hpchars c hc)
        rw [show ('/' :: ((s0 ++ pathSer rest) ++ '#' :: fc) : Chars) =
          ('/' :: (s0 ++ pathSer rest)) ++ '#' :: fc from by simp]
        rw [htw, hdw]
        simp only []
        rw [List.drop_one, List.tail_cons, hpr, encWith_id_of_not hfc]
    | some qc =>
      have hqc := hq qc hqv
      have hnh : ('#' : Char) ∉ qc := fun hm => by
        have hb := hqc _ hm
        rw [show inQuerySet '#' = true from by decide] at hb
        exact absurd hb (by simp)
      have hdwq : ∀ x ∈ qc, decide (x ≠ '#') = true := by
        intro x hx
        simp only [decide_eq_true_eq]
        intro he
        exact hnh (he ▸ hx)
      have htwq : qc.takeWhile (fun x => x ≠ '#') = qc :=
        List.takeWhile_eq_self_iff.2 hdwq
      cases hfv : fr with
      | none =>
        rw [pathSer_cons, show queryPart (some qc) = '?' :: qc from rfl,
          show fragPart none = [] from rfl, List.append_nil]
        rw [show (('/' :: (s0 ++ pathSer rest)) ++ '?' :: qc : Chars) =
          '/' :: ((s0 ++ pathSer rest) ++ '?' :: qc) from by simp]
        simp only [parseTail]
        rw [if_pos trivial]
        obtain ⟨htw, hdw⟩ := @takeWhile_concat_stop
          (fun x => decide (x ≠ '?' ∧ x ≠ '#')) ('?' :: qc)
          (fun x hx => by
            have hx2 : x = '?' := (Option.some.inj hx).symm
            rw [hx2]
            decide)
          ('/' :: (s0 ++ pathSer rest))
          (fun c hc => by
            simp only [decide_eq_true_eq]
            rw [List.mem_cons] at hc
            rcases hc with rfl | hc
            · exact ⟨by decide, by decide⟩
            · exact hpchars c hc)
        rw [show ('/' :: ((s0 ++ pathSer rest) ++ '?' :: qc) : Chars) =
          ('/' :: (s0 ++ pathSer rest)) ++ '?' :: qc from by simp]
        rw [htw, hdw]
        simp only []
        rw [List.drop_one, List.tail_cons, hpr, htwq, encWith_id_of_not hqc]
        rw [List.dropWhile_eq_nil_iff.2 hdwq]
      | some fc =>
        have hfc := hf fc hfv
        rw [pathSer_cons, show queryPart (some qc) = '?' :: qc from rfl,
          show fragPart (some fc) = '#' :: fc from rfl]
        rw [show (('/' :: (s0 ++ pathSer rest)) ++ '?' :: qc ++ '#' :: fc : Chars) =
          '/' :: ((s0 ++ pathSer rest) ++ '?' :: (qc ++ '#' :: fc)) from by simp]
        simp only [parseTail]
        rw [if_pos trivial]
        obtain ⟨htw, hdw⟩ := @takeWhile_concat_stop
          (fun x => decide (x ≠ '?' ∧ x ≠ '#')) ('?' :: (qc ++ '#' :: fc))
          (fun x hx => by
            have hx2 : x = '?' := (Option.some.inj hx).symm
            rw [hx2]
            decide)
          ('/' :: (s0 ++ pathSer rest))
          (fun c hc => by
            simp only [decide_eq_true_eq]
            rw [List.mem_cons] at hc
            rcases hc with rfl | hc
            · exact ⟨by decide, by decide⟩
            · exact hpchars c hc)
        rw [show ('/' :: ((s0 ++ pathSer rest) ++ '?' :: (qc ++ '#' :: fc)) : Chars) =
          ('/' :: (s0 ++ pathSer rest)) ++ '?' :: (qc ++ '#' :: fc) from by simp]
        rw [htw, hdw]
        simp only []
        obtain ⟨htw2, hdw2⟩ := @takeWhile_concat_stop
          (fun x => decide (x ≠ '#')) ('#' :: fc)
          (fun x hx => by
            have hx2 : x = '#' := (Option.some.inj hx).symm
            rw [hx2]
            decide)
          qc hdwq
        rw [List.drop_one, List.tail_cons, hpr, htw2, hdw2]
        simp only []
        rw [encWith_id_of_not hqc, encWith_id_of_not hfc]

theorem imageNew_some_eq {s : String} {url : UrlRec} (hurl : urlParse s = some url) :
    Image.new s = (if url.path.isEmpty = true then
        (parse_image_name_with_scheme (serializeUrl url)).map (fun f => (f, none, none))
      else parse_fqn (serializeUrl url)).map (fun x =>
        { registry := mkRegistry url, fqn := x.1.asString,
          name := (parse_image_name x.1).asString, tag := x.2.1.map List.asString,
          sha256 := x.2.2.map List.asString }) := by
  unfold Image.new
  rw [hurl]

theorem asString_nil_iff {l : Chars} : l.asString = "" ↔ l = [] := by
  constructor
  · intro h
    have h2 := congrArg String.toList h
    rwa [List.toList_asString, String.toList_empty] at h2
  · intro h
    rw [h]
    exact String.asString_nil

theorem pims_some {u f : Chars} (h : parse_image_name_with_scheme u = some f) :
    u = regPre ++ f ∧ ('\n' : Char) ∉ f := by
  unfold parse_image_name_with_scheme at h
  split at h
  · rename_i rest hsp
    split at h
    · exact absurd h (by simp)
    · rename_i hnl
      have hf := Option.some.inj h
      subst hf
      exact ⟨stripPre_some hsp, hnl⟩
  · exact absurd h (by simp)

theorem hostSer_ne_nil {l : Chars} {hp : Option HostV × Option Nat} {hv : HostV}
    (h : parseHostPort l = some hp) (hh : hp.1 = some hv) : hostSer (some hv) ≠ [] := by
  cases hv with
  | v6 a => simp [hostSer]
  | dom s =>
    obtain ⟨raw, hne, _, hs⟩ := parseHostPort_dom h hh
    cases raw with
    | nil => exact absurd rfl hne
    | cons c r =>
      rw [show hostSer (some (.dom s)) = s from rfl, hs]
      exact encWith_ne_nil

end TrustedRepos

namespace TrustedRepos

/-! ## Claim theorems: concrete evaluations -/

/-- C1: for every payload that deserializes successfully into a
`ValidationRequest`, the entry point `validate` returns an accept verdict —
it never inspects the request and never rejects. -/
theorem validate_accepts_all_deserialized
    (deser : List Nat → Option ValidationRequest) (payload : List Nat)
    (vr : ValidationRequest) (h : deser payload = some vr) :
    validate deser payload = some Verdict.accept := by
  simp [validate, h, acceptRequest]

/-- Witness for C1 at a concrete deserializer and payload. -/
theorem validate_accepts_all_deserialized_w :
    deserStub [] = some ⟨⟨⟨[], []⟩, ⟨[], []⟩, ⟨[], []⟩⟩, []⟩ ∧
      validate deserStub [] = some Verdict.accept :=
  ⟨rfl, validate_accepts_all_deserialized deserStub [] ⟨⟨⟨[], []⟩, ⟨[], []⟩, ⟨[], []⟩⟩, []⟩ rfl⟩

/-- C10: every policy check of the observed source is stubbed to constantly
reject: the three `Settings` checks return `false` on all inputs. -/
theorem settings_checks_always_false (st : Settings) (r t i : String) :
    st.is_allowed_registry r = false ∧ st.is_allowed_tag t = false ∧
      st.is_allowed_image i = false :=
  ⟨rfl, rfl, rfl⟩

/-- C3: the input `"image:tag"` does not parse — `Url::parse` reads `tag` as
a URL port, which must be numeric, so `Image::new` returns an error, although
the repository's own test `parse_image` expects success with name `image`. -/
theorem image_tag_input_is_rejected : Image.new "image:tag" = none := by decide

/-- C4: the input `"example.com:5000/image:tag"` parses, but the `parse_fqn`
regex runs on the full serialized URL, so the repository expression is cut at
the port colon: `fqn`/`name` are `example.com` and the tag is
`5000/image:tag`, not `image` and `tag` as the claim (and the repository's
test `parse_image`) state. -/
theorem registry_port_input_misparsed :
    Image.new "example.com:5000/image:tag" =
      some { registry := some "example.com:5000", fqn := "example.com",
             name := "example.com", tag := some "5000/image:tag", sha256 := none } := by
  decide

/-- C2 counterexample: `Image::new "image"` succeeds and its registry is
`Some "image"`, not `None` — the authority candidate is never discarded
(`registry: registry.ok()` runs in both branches). -/
theorem registry_kept_on_bare_image_cex :
    Image.new "image" =
      some { registry := some "image", fqn := "image", name := "image",
             tag := none, sha256 := none } := by decide

/-- C2 (amended): for every input without `/` that `Image::new` parses
successfully, the registry candidate captured by the URI authority parser is
NOT discarded: the registry field is `Some` exactly when the input has a
nonempty authority, i.e. a nonempty part before any `?` or `#` (so `None`
only for inputs that preprocess to the empty string or start with `?` or
`#`). -/
theorem registry_of_slashless_inputs {s : String} {img : Image}
    (hs : ('/' : Char) ∉ s.toList) (h : Image.new s = some img) :
    img.registry.isSome ↔ (preprocess s).takeWhile (fun c => c ≠ '?' ∧ c ≠ '#') ≠ [] := by
  obtain ⟨url, hurl, caps, hcaps, himg⟩ := imageNew_inv h
  have hiff : img.registry.isSome ↔ url.host.isSome := by
    rw [himg]
    simp [mkRegistry]
  have hsp : ('/' : Char) ∉ preprocess s := fun hm => hs (mem_preprocess hm)
  have hauth : authOf (preprocess s) =
      (preprocess s).takeWhile (fun c => c ≠ '?' ∧ c ≠ '#') := by
    unfold authOf
    apply takeWhile_congr_mem
    intro c hc
    have hslash : c ≠ '/' := fun he => hsp (he ▸ hc)
    simp [isAuthEnd, hslash]
  rw [hiff, ← hauth]
  constructor
  · intro hsome hnil
    rw [(urlHost_none hurl).2 hnil] at hsome
    simp at hsome
  · intro hne
    cases hhost : url.host with
    | some hv => rfl
    | none => exact absurd ((urlHost_none hurl).1 hhost) hne

/-- Witness for the amended C2 at the input `image`. -/
theorem registry_of_slashless_inputs_w :
    Image.new "image" =
        some { registry := some "image", fqn := "image", name := "image",
               tag := none, sha256 := none } ∧
      (({ registry := some "image", fqn := "image", name := "image",
          tag := none, sha256 := none } : Image).registry.isSome ↔
        (preprocess "image").takeWhile (fun c => c ≠ '?' ∧ c ≠ '#') ≠ []) :=
  ⟨by decide, registry_of_slashless_inputs (by decide) (by decide)⟩

/-- C5 counterexample: an input ending in a well-formed `@sha256:` digest can
parse through the empty-path branch, whose regex has no digest group: the
parse succeeds and `sha256` is `none`, not the 64 digest characters. -/
theorem digest_suffix_ignored_cex :
    Image.new
        "image?x@sha256:0000000000000000000000000000000000000000000000000000000000000000" =
      some { registry := some "image",
             fqn :=
               "image?x@sha256:0000000000000000000000000000000000000000000000000000000000000000",
             name :=
               "image?x@sha256:0000000000000000000000000000000000000000000000000000000000000000",
             tag := none, sha256 := none } := by decide

/-- C6 counterexample: `"image@sha256:123"` has a malformed digest (wrong
length), yet `Image::new` succeeds: the `@` is read as a userinfo separator
and `123` as a port, and the empty-path branch never validates a digest. -/
theorem malformed_digest_accepted_cex :
    Image.new "image@sha256:123" =
      some { registry := some "sha256:123", fqn := "image@sha256:123",
             name := "image@sha256:123", tag := none, sha256 := none } := by decide

/-- C7 counterexample: the empty input parses successfully with an empty
`fqn` — an empty repository does not yield a parse error. -/
theorem empty_input_empty_fqn_cex :
    Image.new "" =
      some { registry := none, fqn := "", name := "", tag := none, sha256 := none } := by
  decide

/-- C5 (amended): for every input whose prepared form ends in a well-formed
`@sha256:` digest of 64 hex characters, provided the input reaches the path
state through a slash (the rest after the authority begins with `/`) and
contains no `?` or `#` — so the parse takes the `parse_fqn` branch rather
than the digest-blind empty-path branch — a successful `Image::new` captures
exactly those 64 characters, case preserved, in the `sha256` field. -/
theorem digest_suffix_captured {s : String} {img : Image} {w hx : Chars}
    (hpre : preprocess s = w ++ ("@sha256:".toList ++ hx)) (hhex : isHex64 hx)
    (hslash : (restOf (preprocess s)).head? = some '/')
    (hq : ('?' : Char) ∉ preprocess s) (hh : ('#' : Char) ∉ preprocess s)
    (h : Image.new s = some img) :
    img.sha256 = some hx.asString := by
  obtain ⟨url, hurl, caps, hcaps, himg⟩ := imageNew_inv h
  have hy_enc : ∀ c ∈ "@sha256:".toList ++ hx, inPathSet c = false := by
    intro c hc
    rw [List.mem_append] at hc
    rcases hc with hc | hc
    · rw [show ("@sha256:".toList : Chars) = ['@', 's', 'h', 'a', '2', '5', '6', ':']
        from rfl] at hc
      fin_cases hc <;> decide
    · have hd := (isHex64_spec hhex).2 c hc
      have hr : (48 ≤ c.toNat ∧ c.toNat ≤ 57) ∨ (65 ≤ c.toNat ∧ c.toNat ≤ 70) ∨
          (97 ≤ c.toNat ∧ c.toNat ≤ 102) := by simpa [hexDig] using hd
      exact (range_not_sets hr).1
  have hy_sl : ('/' : Char) ∉ "@sha256:".toList ++ hx := by
    intro hm
    rw [List.mem_append] at hm
    rcases hm with hm | hm
    · exact absurd hm (by decide)
    · have hd := (isHex64_spec hhex).2 _ hm
      simp [hexDig] at hd
  have hy_len : 7 ≤ ("@sha256:".toList ++ hx).length := by
    rw [List.length_append]
    have := (isHex64_spec hhex).1
    omega
  obtain ⟨W, hser, hpne⟩ := serial_suffix hurl hpre hy_enc hy_sl hy_len hslash hq hh
  have hpe : ¬ (url.path.isEmpty = true) := by
    rw [List.isEmpty_iff]
    exact hpne
  rw [if_neg hpe] at hcaps
  have hsh : caps.2.2 = some hx := parse_fqn_digest hser hhex hcaps
  rw [himg, hsh]
  rfl

/-- Witness for the amended C5 at the spec's own digest example. -/
theorem digest_suffix_captured_w :
    Image.new
        "example.com/image@sha256:3fc9b689459d738f8c88a3a48aa9e33542016b7a4052e001aaa536fca74813cb" =
        some { registry := some "example.com", fqn := "example.com/image",
               name := "example.com/image", tag := none,
               sha256 :=
                 some "3fc9b689459d738f8c88a3a48aa9e33542016b7a4052e001aaa536fca74813cb" } ∧
      ({ registry := some "example.com", fqn := "example.com/image",
         name := "example.com/image", tag := none,
         sha256 :=
           some "3fc9b689459d738f8c88a3a48aa9e33542016b7a4052e001aaa536fca74813cb" }
          : Image).sha256 =
        some (List.asString
          "3fc9b689459d738f8c88a3a48aa9e33542016b7a4052e001aaa536fca74813cb".toList) :=
  ⟨by decide,
    @digest_suffix_captured
      "example.com/image@sha256:3fc9b689459d738f8c88a3a48aa9e33542016b7a4052e001aaa536fca74813cb"
      { registry := some "example.com", fqn := "example.com/image",
        name := "example.com/image", tag := none,
        sha256 := some "3fc9b689459d738f8c88a3a48aa9e33542016b7a4052e001aaa536fca74813cb" }
      "example.com/image".toList
      "3fc9b689459d738f8c88a3a48aa9e33542016b7a4052e001aaa536fca74813cb".toList
      (by decide) (by decide) (by decide) (by decide) (by decide) (by decide)⟩

/-- C6 (amended): an input whose prepared form ends in `@sha256:` followed by
an ASCII-alphanumeric digest candidate that is NOT 64 hex characters is
rejected by `Image::new` — provided the input reaches the path state through
a slash and contains no `?` or `#`, so the `parse_fqn` branch (the only one
that validates digests) is the one taken. -/
theorem malformed_digest_fails {s : String} {w d : Chars}
    (hpre : preprocess s = w ++ ("@sha256:".toList ++ d))
    (hdan : ∀ c ∈ d, (48 ≤ c.toNat ∧ c.toNat ≤ 57) ∨ (65 ≤ c.toNat ∧ c.toNat ≤ 90) ∨
      (97 ≤ c.toNat ∧ c.toNat ≤ 122))
    (hbad : isHex64 d = false)
    (hslash : (restOf (preprocess s)).head? = some '/')
    (hq : ('?' : Char) ∉ preprocess s) (hh : ('#' : Char) ∉ preprocess s) :
    Image.new s = none := by
  cases hurl : urlParse s with
  | none =>
    unfold Image.new
    rw [hurl]
  | some url =>
    have hy_enc : ∀ c ∈ "@sha256:".toList ++ d, inPathSet c = false := by
      intro c hc
      rw [List.mem_append] at hc
      rcases hc with hc | hc
      · rw [show ("@sha256:".toList : Chars) = ['@', 's', 'h', 'a', '2', '5', '6', ':']
          from rfl] at hc
        fin_cases hc <;> decide
      · exact alnum_not_path (hdan c hc)
    have hy_sl : ('/' : Char) ∉ "@sha256:".toList ++ d := by
      intro hm
      rw [List.mem_append] at hm
      rcases hm with hm | hm
      · exact absurd hm (by decide)
      · have := hdan _ hm
        have hv : ('/' : Char).toNat = 47 := by decide
        omega
    have hy_len : 7 ≤ ("@sha256:".toList ++ d).length := by
      rw [List.length_append]
      have : ("@sha256:".toList : Chars).length = 8 := by decide
      omega
    obtain ⟨W, hser, hpne⟩ := serial_suffix hurl hpre hy_enc hy_sl hy_len hslash hq hh
    have hpe : ¬ (url.path.isEmpty = true) := by
      rw [List.isEmpty_iff]
      exact hpne
    have hcapsn : parse_fqn (serializeUrl url) = none := by
      cases hm : parse_fqn (serializeUrl url) with
      | none => rfl
      | some caps =>
        exfalso
        obtain ⟨f, t, sh⟩ := caps
        obtain ⟨pre, hpre2, hu, hfne, hfc, htag, hsha⟩ := parse_fqn_decomp hm
        cases sh with
        | none =>
          have hat : ('@' : Char) ∈ serializeUrl url := by
            rw [hser]
            exact List.mem_append_right _ (List.mem_append_left _ (by decide))
          rw [hu] at hat
          simp only [List.mem_append] at hat
          rcases hat with hat | (hat | hat) | hat
          · rcases hpre2 with rfl | rfl
            · exact absurd hat (by decide)
            · simp at hat
          · exact (hfc _ hat).2 rfl
          · cases t with
            | none => simp [tagPart] at hat
            | some tc =>
              rw [show tagPart (some tc) = ':' :: tc from rfl, List.mem_cons] at hat
              rcases hat with hat | hat
              · exact absurd hat (by decide)
              · exact (htag tc rfl).2 hat
          · simp [shaPart] at hat
        | some hxx =>
          have hhx : isHex64 hxx := hsha hxx rfl
          have hsuf1 : ("@sha256:".toList ++ hxx) <:+ serializeUrl url := by
            refine ⟨pre ++ (f ++ tagPart t), ?_⟩
            rw [hu, show shaPart (some hxx) = "@sha256:".toList ++ hxx from rfl]
            simp [List.append_assoc]
          have hsuf2 : ("@sha256:".toList ++ d) <:+ serializeUrl url := ⟨W, hser.symm⟩
          have hatd : ('@' : Char) ∉ d := by
            intro hm2
            have := hdan _ hm2
            have hv : ('@' : Char).toNat = 64 := by decide
            omega
          have hatx : ('@' : Char) ∉ hxx := hex64_not_at hhx
          rcases List.suffix_or_suffix_of_suffix hsuf1 hsuf2 with hs | hs
          · obtain ⟨e, he⟩ := hs
            cases e with
            | nil =>
              rw [List.nil_append] at he
              have hde : hxx = d := List.append_cancel_left he
              rw [← hde] at hbad
              rw [hhx] at hbad
              exact absurd hbad (by simp)
            | cons e0 er =>
              rw [show ("@sha256:".toList ++ d : Chars) = '@' :: ("sha256:".toList ++ d)
                from rfl, List.cons_append] at he
              have htl := (List.cons.inj he).2
              have hin : ('@' : Char) ∈ er ++ ("@sha256:".toList ++ hxx) :=
                List.mem_append_right _ (List.mem_append_left _ (by decide))
              rw [htl, List.mem_append] at hin
              rcases hin with hin | hin
              · exact absurd hin (by decide)
              · exact hatd hin
          · obtain ⟨e, he⟩ := hs
            cases e with
            | nil =>
              rw [List.nil_append] at he
              have hde : d = hxx := List.append_cancel_left he
              rw [hde, hhx] at hbad
              exact absurd hbad (by simp)
            | cons e0 er =>
              rw [show ("@sha256:".toList ++ hxx : Chars) = '@' :: ("sha256:".toList ++ hxx)
                from rfl, List.cons_append] at he
              have htl := (List.cons.inj he).2
              have hin : ('@' : Char) ∈ er ++ ("@sha256:".toList ++ d) :=
                List.mem_append_right _ (List.mem_append_left _ (by decide))
              rw [htl, List.mem_append] at hin
              rcases hin with hin | hin
              · exact absurd hin (by decide)
              · exact hatx hin
    rw [imageNew_some_eq hurl, if_neg hpe, hcapsn]
    rfl

/-- Witness for the amended C6 at the spec's own malformed-digest example. -/
theorem malformed_digest_fails_w :
    preprocess "example.com/image@sha256:abc" =
        "example.com/image".toList ++ ("@sha256:".toList ++ "abc".toList) ∧
      Image.new "example.com/image@sha256:abc" = none :=
  ⟨by decide,
    @malformed_digest_fails "example.com/image@sha256:abc" ("example.com/image".toList)
      ("abc".toList) (by decide) (by decide) (by decide) (by decide) (by decide) (by decide)⟩

/-- C7 (amended): for every input that `Image::new` parses successfully, the
repository field `fqn` is empty exactly when the input itself is empty after
the URL parser's input preparation (trailing C0 controls and spaces trimmed,
tabs and newlines removed) — an empty repository is accepted, not rejected,
and it arises only from such empty inputs. -/
theorem fqn_empty_iff_empty_input {s : String} {img : Image}
    (h : Image.new s = some img) : img.fqn = "" ↔ preprocess s = [] := by
  obtain ⟨url, hurl, caps, hcaps, himg⟩ := imageNew_inv h
  obtain ⟨hp, hhp, hguard, hurl_eq⟩ := urlParse_inv hurl
  constructor
  · intro hfqn
    have hnil : caps.1 = [] := by
      rw [himg] at hfqn
      exact asString_nil_iff.1 hfqn
    by_cases hpe : url.path.isEmpty = true
    · rw [if_pos hpe] at hcaps
      simp only [Option.map_eq_some'] at hcaps
      rcases hcaps with ⟨f, hf, hcf⟩
      have hfe : f = serialTail url := by
        have h2 := (pims_some hf).1
        rw [show serializeUrl url = regPre ++ serialTail url from rfl] at h2
        exact (List.append_cancel_left h2).symm
      have hfnil : f = [] := by
        rw [← hcf] at hnil
        exact hnil
      have hst : serialTail url = [] := by rw [← hfe, hfnil]
      rw [serialTail_def] at hst
      simp only [List.append_eq_nil] at hst
      obtain ⟨⟨⟨⟨⟨hA, hB⟩, hC⟩, hD⟩, hE⟩, hF⟩ := hst
      have hhost : url.host = none := by
        cases hho : url.host with
        | none => rfl
        | some hv =>
          have hh1 : hp.1 = some hv := by rw [hurl_eq] at hho; exact hho
          rw [hho] at hB
          exact absurd hB (hostSer_ne_nil hhp hh1)
      have hpath : url.path = [] := List.isEmpty_iff.1 hpe
      have hqn : url.query = none := by
        cases hq : url.query with
        | none => rfl
        | some q => rw [hq] at hE; exact absurd hE (by simp [queryPart])
      have hfn : url.fragment = none := by
        cases hq : url.fragment with
        | none => rfl
        | some q => rw [hq] at hF; exact absurd hF (by simp [fragPart])
      have hauth : authOf (preprocess s) = [] := (urlHost_none hurl).1 hhost
      have hP : url.path = (parseTail (restOf (preprocess s))).1 := by rw [hurl_eq]
      have hQ : url.query = (parseTail (restOf (preprocess s))).2.1 := by rw [hurl_eq]
      have hF2 : url.fragment = (parseTail (restOf (preprocess s))).2.2 := by rw [hurl_eq]
      have hrest : restOf (preprocess s) = [] :=
        parseTail_empty (by rw [← hP, hpath]) (by rw [← hQ, hqn]) (by rw [← hF2, hfn])
      have hsum := authOf_append_restOf (preprocess s)
      rw [hauth, hrest] at hsum
      exact hsum.symm
    · rw [if_neg hpe] at hcaps
      obtain ⟨_, _, _, hne, _⟩ := parse_fqn_decomp hcaps
      exact absurd hnil hne
  · intro hnil
    have hcomp : parseHostPort (splitLastAt (authOf (preprocess s))).2 = some (none, none) := by
      rw [hnil]
      decide
    rw [hcomp] at hhp
    have hpv : hp = (none, none) := (Option.some.inj hhp).symm
    have hurl2 : url = ⟨[], [], none, none, [], none, none⟩ := by
      rw [hurl_eq, hnil, hpv]
      decide
    rw [hurl2] at hcaps
    have hcv : some (([] : Chars), (none : Option Chars), (none : Option Chars)) = some caps :=
      Eq.trans (by decide) hcaps
    have hcaps2 : caps = ([], none, none) := (Option.some.inj hcv).symm
    rw [himg, hcaps2]
    exact String.asString_nil

/-- Witness for the amended C7 at the input `image`: the parse succeeds, and
the `fqn` is empty exactly when the prepared input is (both sides false). -/
theorem fqn_empty_iff_empty_input_w :
    Image.new "image" =
        some { registry := some "image", fqn := "image", name := "image",
               tag := none, sha256 := none } ∧
      (({ registry := some "image", fqn := "image", name := "image",
          tag := none, sha256 := none } : Image).fqn = "" ↔ preprocess "image" = []) :=
  ⟨by decide, fqn_empty_iff_empty_input (by decide)⟩

/-- C8 counterexample: `"image"` parses with no digest, but reconstructing
`"registry/repository"` gives `"image/image"`, which re-parses to a different
reference — the repository field already contains the registry text, so
prepending the registry breaks the round trip. -/
theorem roundtrip_with_registry_cex :
    (Image.new "image").map (fun i => (i.sha256, reconClaim i)) =
        some (none, "image/image") ∧
      (Image.new "image").bind (fun i => Image.new (reconClaim i)) ≠ Image.new "image" := by
  decide

/-- C8 (amended): the round trip holds for every successfully parsed
reference with no registry, no tag and no digest: reconstructing the
claimed string (which then is just the repository field) and parsing it
again yields an equal reference.  When a registry is present the
reconstruction prepends text the repository field already contains — see
the counterexample — so the unrestricted round trip fails. -/
theorem roundtrip_no_registry {s : String} {img : Image}
    (h : Image.new s = some img) (hr : img.registry = none)
    (ht : img.tag = none) (hd : img.sha256 = none) :
    Image.new (reconClaim img) = some img := by
  obtain ⟨url, hurl, caps, hcaps, himg⟩ := imageNew_inv h
  obtain ⟨hp, hhp, hguard, hurl_eq⟩ := urlParse_inv hurl
  have hmkr : mkRegistry url = none := by rw [himg] at hr; exact hr
  have hhost : url.host = none := Option.map_eq_none'.1 hmkr
  obtain ⟨hauth, hport, husr, hpwd⟩ := urlHost_none_parts hurl hhost
  have htn : caps.2.1 = none := Option.map_eq_none'.1 (by rw [himg] at ht; exact ht)
  have hsn : caps.2.2 = none := Option.map_eq_none'.1 (by rw [himg] at hd; exact hd)
  have hup : userPart url = [] := by
    unfold userPart
    rw [if_pos ⟨by rw [husr]; rfl, by rw [hpwd]; rfl⟩]
  have hst : serialTail url = pathSer url.path ++ queryPart url.query ++
      fragPart url.fragment := by
    rw [serialTail_def, hup, hhost, hport]
    simp [hostSer, portPart]
  have hgt := serialTail_gt20 hurl
  have hnl : ('\n' : Char) ∉ serialTail url := by
    intro hm
    have hb := hgt _ hm
    have hv : ('\n' : Char).toNat = 10 := by decide
    omega
  have hfqn : caps.1 = serialTail url := by
    by_cases hpe : url.path.isEmpty = true
    · rw [if_pos hpe] at hcaps
      simp only [Option.map_eq_some'] at hcaps
      rcases hcaps with ⟨f, hf, hcf⟩
      have h2 := (pims_some hf).1
      rw [show serializeUrl url = regPre ++ serialTail url from rfl] at h2
      rw [← hcf]
      exact (List.append_cancel_left h2).symm
    · rw [if_neg hpe] at hcaps
      obtain ⟨pre, hpre2, hu, hfne, hfc, htag2, hsha2⟩ := parse_fqn_decomp hcaps
      rw [htn, hsn] at hu
      rw [show tagPart none = [] from rfl, show shaPart none = [] from rfl,
        List.append_nil, List.append_nil] at hu
      rcases hpre2 with rfl | rfl
      · rw [show serializeUrl url = regPre ++ serialTail url from rfl] at hu
        exact (List.append_cancel_left hu).symm
      · exfalso
        rw [List.nil_append] at hu
        have hcol : (':' : Char) ∈ serializeUrl url := by
          rw [show serializeUrl url = regPre ++ serialTail url from rfl]
          exact List.mem_append_left _ (by decide)
        rw [hu] at hcol
        exact (hfc _ hcol).1 rfl
  have hname : img.name = (serialTail url).asString := by
    rw [himg]
    have hpn : parse_image_name caps.1 = caps.1 :=
      parse_image_name_no_nl (by rw [hfqn]; exact hnl)
    show (parse_image_name caps.1).asString = _
    rw [hpn, hfqn]
  have hr1 : reconClaim img = img.name_with_tag := by
    unfold reconClaim
    rw [hr]
    exact String.empty_append _
  have hr2 : img.name_with_tag = img.name := by
    unfold Image.name_with_tag
    rw [ht]
    exact String.append_empty _
  have hprep : preprocess (reconClaim img) = serialTail url := by
    rw [hr1, hr2, hname]
    exact preprocess_of_gt20 hgt
  have hQ : url.query = (parseTail (restOf (preprocess s))).2.1 := by rw [hurl_eq]
  have hF : url.fragment = (parseTail (restOf (preprocess s))).2.2 := by rw [hurl_eq]
  have hqcl : ∀ qc, url.query = some qc → ∀ c ∈ qc, inQuerySet c = false := by
    intro qc hqq c hc
    obtain ⟨qs, hqs⟩ := parseTail_query_enc (by rw [← hQ]; exact hqq)
    exact encQuery_closed (hqs ▸ hc)
  have hfcl : ∀ fc, url.fragment = some fc → ∀ c ∈ fc, inFragSet c = false := by
    intro fc hff c hc
    obtain ⟨fs, hfs⟩ := parseTail_frag_enc (by rw [← hF]; exact hff)
    exact encFrag_closed (hfs ▸ hc)
  by_cases hpe : url.path.isEmpty = true
  · have hpath : url.path = [] := List.isEmpty_iff.1 hpe
    have hst2 : serialTail url = queryPart url.query ++ fragPart url.fragment := by
      rw [hst, hpath]
      simp [pathSer]
    have hpt2 : parseTail (queryPart url.query ++ fragPart url.fragment) =
        ([], url.query, url.fragment) := parseTail_reassemble_nopath hqcl hfcl
    have hauth2 : authOf (serialTail url) = [] := by
      rw [hst2]
      cases hqv : url.query with
      | some qc =>
        rw [show queryPart (some qc) = '?' :: qc from rfl, List.cons_append]
        unfold authOf
        rw [List.takeWhile_cons]
        simp [isAuthEnd]
      | none =>
        cases hfv : url.fragment with
        | some fc =>
          rw [show queryPart none = [] from rfl, List.nil_append,
            show fragPart (some fc) = '#' :: fc from rfl]
          unfold authOf
          rw [List.takeWhile_cons]
          simp [isAuthEnd]
        | none => rfl
    have hup2 : urlParse (reconClaim img) =
        some ⟨[], [], none, none, [], url.query, url.fragment⟩ := by
      have h3 := urlParse_tailonly hprep hauth2
      rw [hst2, hpt2] at h3
      exact h3
    have hser2 : serializeUrl (⟨[], [], none, none, [], url.query, url.fragment⟩ : UrlRec) =
        serializeUrl url := by
      unfold serializeUrl
      rw [hst2]
      rw [show serialTail (⟨[], [], none, none, [], url.query, url.fragment⟩ : UrlRec) =
        queryPart url.query ++ fragPart url.fragment from by rw [serialTail_def]; rfl]
    have hpims : parse_image_name_with_scheme (serializeUrl url) =
        some (serialTail url) := by
      unfold parse_image_name_with_scheme
      rw [show serializeUrl url = regPre ++ serialTail url from rfl, stripPre_append]
      show (if ('\n' : Char) ∈ serialTail url then none else some (serialTail url)) =
        some (serialTail url)
      rw [if_neg hnl]
    rw [imageNew_some_eq hup2]
    rw [if_pos (show (⟨[], [], none, none, [], url.query, url.fragment⟩ :
      UrlRec).path.isEmpty = true from rfl)]
    rw [hser2, hpims]
    simp only [Option.map_some']
    rw [himg, hfqn, htn, hsn, hmkr, parse_image_name_no_nl hnl]
    rfl
  · have hpne2 : url.path ≠ [] := by
      intro hnil
      exact hpe (by rw [hnil]; rfl)
    have hsegs : ∀ seg ∈ url.path, ('/' : Char) ∉ seg ∧ (∀ c ∈ seg, inPathSet c = false) ∧
        ¬ isSingleDot seg ∧ ¬ isDoubleDot seg := by
      have hP : url.path = (parseTail (restOf (preprocess s))).1 := by rw [hurl_eq]
      rw [hP]
      exact fun seg hseg => parseTail_path_good seg hseg
    have hpt2 : parseTail (pathSer url.path ++ queryPart url.query ++
        fragPart url.fragment) = (url.path, url.query, url.fragment) :=
      parseTail_reassemble hpne2 hsegs hqcl hfcl
    have hauth2 : authOf (serialTail url) = [] := by
      rw [hst]
      rcases hpv : url.path with _ | ⟨p0, pr⟩
      · exact absurd hpv hpne2
      · rw [pathSer_cons, List.cons_append, List.cons_append]
        unfold authOf
        rw [List.takeWhile_cons]
        simp [isAuthEnd]
    have hup2 : urlParse (reconClaim img) =
        some ⟨[], [], none, none, url.path, url.query, url.fragment⟩ := by
      have h3 := urlParse_tailonly hprep hauth2
      rw [hst, hpt2] at h3
      exact h3
    have hser2 : serializeUrl (⟨[], [], none, none, url.path, url.query,
        url.fragment⟩ : UrlRec) = serializeUrl url := by
      unfold serializeUrl
      rw [hst]
      rw [show serialTail (⟨[], [], none, none, url.path, url.query,
        url.fragment⟩ : UrlRec) =
        pathSer url.path ++ queryPart url.query ++ fragPart url.fragment from by
          rw [serialTail_def]
          rfl]
    have hcaps2 : parse_fqn (serializeUrl url) = some caps := by
      have hcv := hcaps
      rw [if_neg hpe] at hcv
      exact hcv
    rw [imageNew_some_eq hup2]
    rw [if_neg (show ¬ ((⟨[], [], none, none, url.path, url.query, url.fragment⟩ :
      UrlRec).path.isEmpty = true) from hpe)]
    rw [hser2, hcaps2]
    simp only [Option.map_some']
    rw [himg, hmkr]
    rfl

/-- Witness for the amended C8 at the registry-less input `/image`. -/
theorem roundtrip_no_registry_w :
    Image.new "/image" =
        some { registry := none, fqn := "/image", name := "/image",
               tag := none, sha256 := none } ∧
      Image.new (reconClaim { registry := none, fqn := "/image", name := "/image",
                              tag := none, sha256 := none }) =
        some { registry := none, fqn := "/image", name := "/image",
               tag := none, sha256 := none } :=
  ⟨by decide,
    @roundtrip_no_registry "/image"
      { registry := none, fqn := "/image", name := "/image",
        tag := none, sha256 := none } (by decide) rfl rfl rfl⟩

end TrustedRepos
